import Mathlib

/-!
Verification of core components of the markgit-editor server.

Shallow embedding of the Python source:
- timestamps (`datetime.now()`) are rationals (seconds);
- Python dicts are insertion-ordered association lists (`List (String × _)`)
  whose keys are pairwise distinct (dicts cannot hold duplicate keys; this
  invariant appears as a hypothesis where it matters);
- `int(x)` truncates toward zero, modelled by `pyTrunc` (T-division of
  numerator by denominator);
- subprocess invocations are recorded in explicit command traces.
-/

namespace MarkGit

/-- Python `int(q)` for a rational number of seconds: truncation toward zero
(T-division of the numerator by the denominator). -/
def pyTrunc (q : ℚ) : ℤ :=
  Int.tdiv q.num q.den

/-- Python `min(iterable)` — `none` models the `ValueError` on an empty
iterable; on a nonempty list it folds `min` from the first element. -/
def pyMin : List ℚ → Option ℚ
  | [] => none
  | a :: l => some (l.foldl min a)

/-! ## Association-list primitives (Python `dict` semantics)

Python dicts preserve insertion order; lookup finds the unique binding,
`del` removes it, and assignment replaces in place or appends at the end. -/

/-- `d[k]` — first binding for `k` (the unique one, when keys are distinct). -/
def lookupKey {β : Type} : List (String × β) → String → Option β
  | [], _ => none
  | p :: l, k => if p.1 = k then some p.2 else lookupKey l k

/-- `del d[k]` — drop the first binding for `k`. -/
def eraseKey {β : Type} : List (String × β) → String → List (String × β)
  | [], _ => []
  | p :: l, k => if p.1 = k then l else p :: eraseKey l k

/-- `d[k] = v` — replace the binding in place, or append a fresh one. -/
def setKey {β : Type} : List (String × β) → String → β → List (String × β)
  | [], k, v => [(k, v)]
  | p :: l, k, v => if p.1 = k then (k, v) :: l else p :: setKey l k v

theorem lookupKey_setKey_self {β : Type} (l : List (String × β)) (k : String) (v : β) :
    lookupKey (setKey l k v) k = some v := by
  induction l with
  | nil => simp [setKey, lookupKey]
  | cons p l ih =>
    by_cases h : p.1 = k
    · simp [setKey, h, lookupKey]
    · simp [setKey, h, lookupKey, ih]

theorem setKey_of_lookup_none {β : Type} (l : List (String × β)) (k : String) (v : β)
    (h : lookupKey l k = none) : setKey l k v = l ++ [(k, v)] := by
  induction l with
  | nil => simp [setKey]
  | cons p l ih =>
    by_cases hp : p.1 = k
    · simp [lookupKey, hp] at h
    · simp [lookupKey, hp] at h
      simp [setKey, hp, ih h]

theorem mem_setKey_of_mem {β : Type} (k : String) (v : β) (q : String × β)
    (hne : q.1 ≠ k) : ∀ l : List (String × β), q ∈ l → q ∈ setKey l k v := by
  intro l
  induction l with
  | nil => intro hq; simp at hq
  | cons p l ih =>
    intro hq
    rcases List.mem_cons.mp hq with rfl | hq
    · have hp : ¬ q.1 = k := hne
      simp [setKey, hp]
    · by_cases hp : p.1 = k
      · simp [setKey, hp]
        exact Or.inr hq
      · simp [setKey, hp]
        exact Or.inr (ih hq)

theorem mem_eraseKey_of_mem {β : Type} (k : String) (q : String × β)
    (hne : q.1 ≠ k) : ∀ l : List (String × β), q ∈ l → q ∈ eraseKey l k := by
  intro l
  induction l with
  | nil => intro hq; simp at hq
  | cons p l ih =>
    intro hq
    rcases List.mem_cons.mp hq with rfl | hq
    · have hp : ¬ q.1 = k := hne
      simp [eraseKey, hp]
    · by_cases hp : p.1 = k
      · simp [eraseKey, hp]
        exact hq
      · simp [eraseKey, hp]
        exact Or.inr (ih hq)

/-! ## Rate limiter — `src/app/auth/rate_limiter.py`, `InMemoryRateLimiter.is_allowed`

The limiter keeps, per key, the list of request timestamps inside the trailing
window.  `is_allowed` prunes entries at or before `now - window_seconds`,
denies when the pruned count already reaches `max_requests` (Python `min` on an
empty list would raise, modelled by `none`), else records `now` and allows. -/

/-- One `is_allowed` call for a single key.  Returns
`some ((allowed, retry_after), new_timestamps)`, or `none` on the (unreachable
for positive `max_requests`) `min([])` error path. -/
def isAllowed (times : List ℚ) (now : ℚ) (maxRequests : ℕ) (windowSeconds : ℚ) :
    Option ((Bool × ℤ) × List ℚ) :=
  let windowStart := now - windowSeconds
  let pruned := times.filter (fun t => windowStart < t)
  if maxRequests ≤ pruned.length then
    match pyMin pruned with
    | none => none
    | some oldest =>
        some ((false, max 1 (pyTrunc (oldest + windowSeconds - now))), pruned)
  else
    some ((true, 0), pruned ++ [now])

/-- A sequence of `is_allowed` calls on one key, threading the stored
timestamps; collects the `(allowed, retry_after)` results. -/
def runLimiter (state : List ℚ) (maxRequests : ℕ) (windowSeconds : ℚ) :
    List ℚ → Option (List (Bool × ℤ) × List ℚ)
  | [] => some ([], state)
  | now :: rest =>
    match isAllowed state now maxRequests windowSeconds with
    | none => none
    | some (r, st2) =>
      match runLimiter st2 maxRequests windowSeconds rest with
      | none => none
      | some (rs, fin) => some (r :: rs, fin)

theorem foldl_min_of_le (a : ℚ) (l : List ℚ) (h : ∀ x ∈ l, a ≤ x) :
    l.foldl min a = a := by
  induction l generalizing a with
  | nil => rfl
  | cons x l ih =>
    have hx : a ≤ x := h x (by simp)
    have hmin : min a x = a := min_eq_left hx
    simp only [List.foldl_cons, hmin]
    exact ih a (fun y hy => h y (by simp [hy]))

theorem pyMin_cons_of_le (a : ℚ) (l : List ℚ) (h : ∀ x ∈ l, a ≤ x) :
    pyMin (a :: l) = some a := by
  simp only [pyMin]
  rw [foldl_min_of_le a l h]

theorem isAllowed_allows (times : List ℚ) (now : ℚ) (maxR : ℕ) (w : ℚ)
    (hkeep : ∀ x ∈ times, now - w < x) (hlen : times.length < maxR) :
    isAllowed times now maxR w = some ((true, 0), times ++ [now]) := by
  simp only [isAllowed]
  rw [List.filter_eq_self.mpr (fun a ha => decide_eq_true (hkeep a ha))]
  rw [if_neg (by omega)]

theorem isAllowed_denies (times : List ℚ) (now : ℚ) (maxR : ℕ) (w : ℚ) (m : ℚ)
    (hkeep : ∀ x ∈ times, now - w < x) (hlen : maxR ≤ times.length)
    (hmin : pyMin times = some m) :
    isAllowed times now maxR w
      = some ((false, max 1 (pyTrunc (m + w - now))), times) := by
  simp only [isAllowed]
  rw [List.filter_eq_self.mpr (fun a ha => decide_eq_true (hkeep a ha))]
  rw [if_pos hlen, hmin]

/-- Claim C6: starting from an empty window, five calls with
`max_requests = 5`, `window_seconds = 60` are each allowed, and a sixth call
inside the same window is denied with a strictly positive `retry_after`,
namely the (truncated, at least 1) seconds until the oldest counted request
leaves the window. -/
theorem rateLimiter_first_five_allowed_sixth_denied
    (t1 t2 t3 t4 t5 t6 : ℚ)
    (h12 : t1 ≤ t2) (h23 : t2 ≤ t3) (h34 : t3 ≤ t4) (h45 : t4 ≤ t5)
    (h56 : t5 ≤ t6) (hwin : t6 - t1 < 60) :
    runLimiter [] 5 60 [t1, t2, t3, t4, t5, t6]
      = some ([(true, 0), (true, 0), (true, 0), (true, 0), (true, 0),
               (false, max 1 (pyTrunc (t1 + 60 - t6)))],
              [t1, t2, t3, t4, t5])
    ∧ 0 < max 1 (pyTrunc (t1 + 60 - t6)) := by
  have h13 : t1 ≤ t3 := le_trans h12 h23
  have h14 : t1 ≤ t4 := le_trans h13 h34
  have h15 : t1 ≤ t5 := le_trans h14 h45
  have h26 : t2 ≤ t6 := by linarith
  have h36 : t3 ≤ t6 := by linarith
  have h46 : t4 ≤ t6 := by linarith
  have key : ∀ x now : ℚ, t1 ≤ x → now ≤ t6 → now - 60 < x := by
    intro x now hx hnow
    linarith
  have s1 : isAllowed [] t1 5 60 = some ((true, 0), [t1]) :=
    isAllowed_allows [] t1 5 60 (by intro x hx; simp at hx) (by simp)
  have s2 : isAllowed [t1] t2 5 60 = some ((true, 0), [t1, t2]) :=
    isAllowed_allows [t1] t2 5 60
      (by
        intro x hx
        rcases List.mem_singleton.mp hx with rfl
        exact key x t2 le_rfl h26)
      (by simp)
  have s3 : isAllowed [t1, t2] t3 5 60 = some ((true, 0), [t1, t2, t3]) :=
    isAllowed_allows [t1, t2] t3 5 60
      (by
        intro x hx
        rcases List.mem_cons.mp hx with rfl | hx
        · exact key x t3 le_rfl h36
        rcases List.mem_singleton.mp hx with rfl
        exact key x t3 h12 h36)
      (by simp)
  have s4 : isAllowed [t1, t2, t3] t4 5 60 = some ((true, 0), [t1, t2, t3, t4]) :=
    isAllowed_allows [t1, t2, t3] t4 5 60
      (by
        intro x hx
        rcases List.mem_cons.mp hx with rfl | hx
        · exact key x t4 le_rfl h46
        rcases List.mem_cons.mp hx with rfl | hx
        · exact key x t4 h12 h46
        rcases List.mem_singleton.mp hx with rfl
        exact key x t4 h13 h46)
      (by simp)
  have s5 : isAllowed [t1, t2, t3, t4] t5 5 60
      = some ((true, 0), [t1, t2, t3, t4, t5]) :=
    isAllowed_allows [t1, t2, t3, t4] t5 5 60
      (by
        intro x hx
        rcases List.mem_cons.mp hx with rfl | hx
        · exact key x t5 le_rfl h56
        rcases List.mem_cons.mp hx with rfl | hx
        · exact key x t5 h12 h56
        rcases List.mem_cons.mp hx with rfl | hx
        · exact key x t5 h13 h56
        rcases List.mem_singleton.mp hx with rfl
        exact key x t5 h14 h56)
      (by simp)
  have s6 : isAllowed [t1, t2, t3, t4, t5] t6 5 60
      = some ((false, max 1 (pyTrunc (t1 + 60 - t6))), [t1, t2, t3, t4, t5]) :=
    isAllowed_denies [t1, t2, t3, t4, t5] t6 5 60 t1
      (by
        intro x hx
        rcases List.mem_cons.mp hx with rfl | hx
        · exact key x t6 le_rfl le_rfl
        rcases List.mem_cons.mp hx with rfl | hx
        · exact key x t6 h12 le_rfl
        rcases List.mem_cons.mp hx with rfl | hx
        · exact key x t6 h13 le_rfl
        rcases List.mem_cons.mp hx with rfl | hx
        · exact key x t6 h14 le_rfl
        rcases List.mem_singleton.mp hx with rfl
        exact key x t6 h15 le_rfl)
      (by simp)
      (pyMin_cons_of_le t1 [t2, t3, t4, t5]
        (by
          intro x hx
          rcases List.mem_cons.mp hx with rfl | hx
          · exact h12
          rcases List.mem_cons.mp hx with rfl | hx
          · exact h13
          rcases List.mem_cons.mp hx with rfl | hx
          · exact h14
          rcases List.mem_singleton.mp hx with rfl
          exact h15))
  refine ⟨?_, lt_of_lt_of_le one_pos (le_max_left 1 _)⟩
  simp [runLimiter, s1, s2, s3, s4, s5, s6]

/-- Witness for C6 at concrete call times 0, 1, 2, 3, 4, 5. -/
theorem rateLimiter_first_five_allowed_sixth_denied_witness :
    runLimiter [] 5 60 [0, 1, 2, 3, 4, 5]
      = some ([(true, 0), (true, 0), (true, 0), (true, 0), (true, 0),
               (false, max 1 (pyTrunc (0 + 60 - 5)))], [0, 1, 2, 3, 4])
    ∧ 0 < max 1 (pyTrunc (0 + 60 - 5)) :=
  rateLimiter_first_five_allowed_sixth_denied 0 1 2 3 4 5
    (by norm_num) (by norm_num) (by norm_num) (by norm_num) (by norm_num)
    (by norm_num)

/-- Claim C9: a denied `is_allowed` call changes the key's stored timestamps
only by the pruning of expired entries — nothing is appended — and hence a
denied call has no effect on the outcome of any later call. -/
theorem rateLimiter_denied_is_pruning_only
    (times : List ℚ) (now : ℚ) (maxR : ℕ) (w : ℚ) (r : ℤ) (st2 : List ℚ)
    (h : isAllowed times now maxR w = some ((false, r), st2)) :
    st2 = times.filter (fun t => decide (now - w < t))
    ∧ st2.Sublist times
    ∧ ∀ now2, now ≤ now2 →
        isAllowed st2 now2 maxR w = isAllowed times now2 maxR w := by
  have hst : st2 = times.filter (fun t => decide (now - w < t)) := by
    simp only [isAllowed] at h
    by_cases hc : maxR ≤ (times.filter (fun t => decide (now - w < t))).length
    · simp only [hc, if_true] at h
      cases hm : pyMin (times.filter (fun t => decide (now - w < t))) with
      | none => rw [hm] at h; simp at h
      | some m =>
        rw [hm] at h
        simp only [Option.some.injEq, Prod.mk.injEq] at h
        exact h.2.symm
    · simp only [hc, if_false] at h
      simp at h
  refine ⟨hst, hst ▸ List.filter_sublist times, ?_⟩
  intro now2 hle
  subst hst
  simp only [isAllowed]
  have habs : List.filter (fun t => decide (now2 - w < t))
      (List.filter (fun t => decide (now - w < t)) times)
      = List.filter (fun t => decide (now2 - w < t)) times := by
    rw [List.filter_filter]
    apply List.filter_congr
    intro x _
    by_cases h2 : now2 - w < x
    · have h1 : now - w < x := by linarith
      simp [h1, h2]
    · simp [h2]
  rw [habs]

/-- Witness for C9: a denied call at `now = 1` on timestamps
`[-70, 0, 0, 0]` (window 60, limit 3) leaves exactly the pruned list
`[0, 0, 0]`, and a later call at `now = 30` behaves identically on the
old and the new state. -/
theorem rateLimiter_denied_is_pruning_only_witness :
    isAllowed [-70, 0, 0, 0] 1 3 60 = some ((false, 59), [0, 0, 0])
    ∧ ([0, 0, 0] : List ℚ)
        = List.filter (fun t => decide ((1 : ℚ) - 60 < t)) [-70, 0, 0, 0]
    ∧ List.Sublist ([0, 0, 0] : List ℚ) [-70, 0, 0, 0]
    ∧ isAllowed [0, 0, 0] 30 3 60 = isAllowed [-70, 0, 0, 0] 30 3 60 := by
  have h : isAllowed [-70, 0, 0, 0] 1 3 60 = some ((false, 59), [0, 0, 0]) := by
    simp only [isAllowed]
    norm_num [List.filter_cons, pyMin, pyTrunc]
  have h2 := rateLimiter_denied_is_pruning_only [-70, 0, 0, 0] 1 3 60 59 [0, 0, 0] h
  exact ⟨h, h2.1, h2.2.1, h2.2.2 30 (by norm_num)⟩

/-! ## Token store — `src/app/auth/token_store.py`, `MemoryTokenStore`

`set` first runs `cleanup_expired` (dropping every entry whose `expires_at`
has passed), then, if the store still holds at least `max_sessions` entries,
deletes the session whose `created_at` is oldest (Python `min` over the keys
in insertion order keeps the first strict minimum), and finally writes the
new entry with `created_at = now`, `expires_at = now + ttl`. -/

/-- A stored token: opaque payload plus the two timestamps `set` attaches. -/
structure TokenEntry where
  data : String
  created_at : ℚ
  expires_at : ℚ
deriving DecidableEq

/-- `cleanup_expired` — drop entries whose `expires_at` lies before `now`. -/
def cleanupExpired (now : ℚ) (store : List (String × TokenEntry)) :
    List (String × TokenEntry) :=
  store.filter (fun p => ¬ (p.2.expires_at < now))

/-- Tail of Python `min(keys, key=created_at)`: keeps the first strict
minimum in iteration order. -/
def oldestGo (best : String × TokenEntry) :
    List (String × TokenEntry) → String
  | [] => best.1
  | q :: l =>
    if q.2.created_at < best.2.created_at then oldestGo q l else oldestGo best l

/-- `min(self._tokens.keys(), key=lambda k: created_at)` — `none` models the
`ValueError` on an empty dict. -/
def oldestSession : List (String × TokenEntry) → Option String
  | [] => none
  | p :: l => some (oldestGo p l)

/-- `MemoryTokenStore.set` — cleanup, capacity eviction, insert. -/
def memSet (maxSessions : ℕ) (now : ℚ) (store : List (String × TokenEntry))
    (sid : String) (data : String) (ttl : ℚ) :
    Option (List (String × TokenEntry)) :=
  let cleaned := cleanupExpired now store
  let entry : TokenEntry := ⟨data, now, now + ttl⟩
  if maxSessions ≤ cleaned.length then
    match oldestSession cleaned with
    | none => none
    | some k => some (setKey (eraseKey cleaned k) sid entry)
  else
    some (setKey cleaned sid entry)

theorem lookupKey_none_of_not_mem_keys {β : Type} (l : List (String × β))
    (k : String) (h : ∀ q ∈ l, q.1 ≠ k) : lookupKey l k = none := by
  induction l with
  | nil => rfl
  | cons p l ih =>
    have hp : p.1 ≠ k := h p (by simp)
    simp only [lookupKey, if_neg hp]
    exact ih (fun q hq => h q (by simp [hq]))

theorem lookupKey_some_of_mem {β : Type} (l : List (String × β))
    (q : String × β) (hnodup : (l.map Prod.fst).Nodup) (hq : q ∈ l) :
    lookupKey l q.1 = some q.2 := by
  induction l with
  | nil => simp at hq
  | cons p l ih =>
    rcases List.mem_cons.mp hq with rfl | hq
    · simp [lookupKey]
    · have hp : p.1 ≠ q.1 := by
        intro hcontra
        have : q.1 ∈ l.map Prod.fst := List.mem_map_of_mem Prod.fst hq
        rw [← hcontra] at this
        exact (List.nodup_cons.mp hnodup).1 this
      simp only [lookupKey, if_neg hp]
      exact ih (List.nodup_cons.mp hnodup).2 hq

theorem lookupKey_eraseKey_ne {β : Type} (l : List (String × β))
    (k k2 : String) (hne : k2 ≠ k) :
    lookupKey (eraseKey l k) k2 = lookupKey l k2 := by
  induction l with
  | nil => rfl
  | cons p l ih =>
    by_cases hp : p.1 = k
    · simp only [eraseKey, if_pos hp, lookupKey]
      rw [if_neg (by rw [hp]; exact fun h => hne h.symm)]
    · by_cases hp2 : p.1 = k2
      · simp only [eraseKey, if_neg hp, lookupKey, if_pos hp2]
      · simp only [eraseKey, if_neg hp, lookupKey, if_neg hp2]
        exact ih

theorem lookupKey_setKey_ne {β : Type} (l : List (String × β))
    (k k2 : String) (v : β) (hne : k2 ≠ k) :
    lookupKey (setKey l k v) k2 = lookupKey l k2 := by
  induction l with
  | nil =>
    simp only [setKey, lookupKey]
    rw [if_neg (fun h => hne h.symm)]
  | cons p l ih =>
    by_cases hp : p.1 = k
    · simp only [setKey, if_pos hp, lookupKey]
      rw [if_neg (fun h => hne h.symm), if_neg (by rw [hp]; exact fun h => hne h.symm)]
    · simp only [setKey, if_neg hp, lookupKey]
      by_cases hp2 : p.1 = k2
      · simp [hp2]
      · simp only [if_neg hp2]
        exact ih

theorem lookupKey_eraseKey_self {β : Type} (l : List (String × β))
    (k : String) (hnodup : (l.map Prod.fst).Nodup) :
    lookupKey (eraseKey l k) k = none := by
  induction l with
  | nil => rfl
  | cons p l ih =>
    by_cases hp : p.1 = k
    · simp only [eraseKey, if_pos hp]
      apply lookupKey_none_of_not_mem_keys
      intro q hq hqk
      have : q.1 ∈ l.map Prod.fst := List.mem_map_of_mem Prod.fst hq
      rw [hqk, ← hp] at this
      exact (List.nodup_cons.mp hnodup).1 this
    · simp only [eraseKey, if_neg hp, lookupKey, if_neg hp]
      exact ih (List.nodup_cons.mp hnodup).2

theorem eraseKey_length {β : Type} (l : List (String × β)) (q : String × β)
    (hq : q ∈ l) : (eraseKey l q.1).length + 1 = l.length := by
  induction l with
  | nil => simp at hq
  | cons p l ih =>
    by_cases hp : p.1 = q.1
    · simp [eraseKey, hp]
    · have hql : q ∈ l := by
        rcases List.mem_cons.mp hq with rfl | h
        · exact absurd rfl hp
        · exact h
      simp only [eraseKey, if_neg hp, List.length_cons]
      rw [← ih hql]

theorem lookupKey_append {β : Type} (l1 l2 : List (String × β)) (k : String)
    (h : lookupKey l1 k = none) :
    lookupKey (l1 ++ l2) k = lookupKey l2 k := by
  induction l1 with
  | nil => rfl
  | cons p l1 ih =>
    by_cases hp : p.1 = k
    · simp [lookupKey, hp] at h
    · simp only [lookupKey, if_neg hp] at h
      simp only [List.cons_append, lookupKey, if_neg hp]
      exact ih h

theorem oldestGo_attains (l : List (String × TokenEntry))
    (best : String × TokenEntry) :
    ∃ m, (m = best ∨ m ∈ l) ∧ oldestGo best l = m.1
      ∧ m.2.created_at ≤ best.2.created_at
      ∧ ∀ r ∈ l, m.2.created_at ≤ r.2.created_at := by
  induction l generalizing best with
  | nil => exact ⟨best, Or.inl rfl, rfl, le_rfl, by simp⟩
  | cons q l ih =>
    by_cases hc : q.2.created_at < best.2.created_at
    · obtain ⟨m, hm, hgo, hle, hall⟩ := ih q
      refine ⟨m, ?_, ?_, ?_, ?_⟩
      · rcases hm with rfl | hm
        · exact Or.inr (by simp)
        · exact Or.inr (by simp [hm])
      · simp [oldestGo, hc, hgo]
      · exact le_trans hle (le_of_lt hc)
      · intro r hr
        rcases List.mem_cons.mp hr with rfl | hr
        · exact hle
        · exact hall r hr
    · obtain ⟨m, hm, hgo, hle, hall⟩ := ih best
      refine ⟨m, ?_, ?_, hle, ?_⟩
      · rcases hm with rfl | hm
        · exact Or.inl rfl
        · exact Or.inr (by simp [hm])
      · simp [oldestGo, hc, hgo]
      · intro r hr
        rcases List.mem_cons.mp hr with rfl | hr
        · exact le_trans hle (le_of_not_lt hc)
        · exact hall r hr

theorem oldestSession_attains (l : List (String × TokenEntry)) (k : String)
    (h : oldestSession l = some k) :
    ∃ m ∈ l, m.1 = k ∧ ∀ r ∈ l, m.2.created_at ≤ r.2.created_at := by
  cases l with
  | nil => simp [oldestSession] at h
  | cons p l =>
    simp only [oldestSession, Option.some.injEq] at h
    obtain ⟨m, hm, hgo, hle, hall⟩ := oldestGo_attains l p
    refine ⟨m, ?_, by rw [← h, hgo], ?_⟩
    · rcases hm with rfl | hm
      · simp
      · simp [hm]
    · intro r hr
      rcases List.mem_cons.mp hr with rfl | hr
      · exact hle
      · exact hall r hr

theorem oldestGo_of_unique_min (p0 : String × TokenEntry) :
    ∀ (l : List (String × TokenEntry)) (best : String × TokenEntry),
    (best = p0 ∨ p0.2.created_at < best.2.created_at) →
    (p0 ∈ l ∨ best = p0) →
    (∀ q ∈ l, q = p0 ∨ p0.2.created_at < q.2.created_at) →
    oldestGo best l = p0.1 := by
  intro l
  induction l with
  | nil =>
    intro best hbest hin _
    rcases hin with hin | rfl
    · simp at hin
    · rfl
  | cons q l ih =>
    intro best hbest hin hall
    rcases hall q (by simp) with rfl | hq
    · by_cases hc : q.2.created_at < best.2.created_at
      · simp only [oldestGo, if_pos hc]
        exact ih q (Or.inl rfl) (Or.inr rfl)
          (fun r hr => hall r (by simp [hr]))
      · have hbq : best = q := by
          rcases hbest with rfl | hlt
          · rfl
          · exact absurd hlt hc
        simp only [oldestGo, if_neg hc]
        exact ih best (Or.inl hbq) (Or.inr hbq)
          (fun r hr => hall r (by simp [hr]))
    · have hqp : q ≠ p0 := by
        intro h
        rw [h] at hq
        exact lt_irrefl _ hq
      by_cases hc : q.2.created_at < best.2.created_at
      · have hbne : best ≠ p0 := by
          intro h
          rw [h] at hc
          exact absurd hc (not_lt.mpr (le_of_lt hq))
        have hp0l : p0 ∈ l := by
          rcases hin with hin | hbe
          · rcases List.mem_cons.mp hin with h | h
            · exact absurd h.symm hqp
            · exact h
          · exact absurd hbe hbne
        simp only [oldestGo, if_pos hc]
        exact ih q (Or.inr hq) (Or.inl hp0l)
          (fun r hr => hall r (by simp [hr]))
      · simp only [oldestGo, if_neg hc]
        have hin2 : p0 ∈ l ∨ best = p0 := by
          rcases hin with hin | hbe
          · rcases List.mem_cons.mp hin with h | h
            · exact absurd h.symm hqp
            · exact Or.inl h
          · exact Or.inr hbe
        exact ih best hbest hin2 (fun r hr => hall r (by simp [hr]))

theorem oldestSession_of_unique_min (l : List (String × TokenEntry))
    (p0 : String × TokenEntry) (hp0 : p0 ∈ l)
    (hmin : ∀ q ∈ l, q ≠ p0 → p0.2.created_at < q.2.created_at) :
    oldestSession l = some p0.1 := by
  cases l with
  | nil => simp at hp0
  | cons p l =>
    simp only [oldestSession, Option.some.injEq]
    apply oldestGo_of_unique_min p0 l p
    · by_cases hpp : p = p0
      · exact Or.inl hpp
      · exact Or.inr (hmin p (by simp) hpp)
    · rcases List.mem_cons.mp hp0 with rfl | h
      · exact Or.inr rfl
      · exact Or.inl h
    · intro q hq
      by_cases hqp : q = p0
      · exact Or.inl hqp
      · exact Or.inr (hmin q (by simp [hq]) hqp)

/-- Claim C5: with the in-process store holding exactly its capacity `N` of
(unexpired) entries, inserting under a fresh session key evicts exactly the
entry with the (unique) oldest `created_at`; every other entry survives and
the new entry is appended, leaving the store at size `N` again. -/
theorem tokenStore_at_capacity_evicts_oldest
    (N : ℕ) (store : List (String × TokenEntry)) (sid data : String)
    (ttl now : ℚ) (p0 : String × TokenEntry)
    (hnodup : (store.map Prod.fst).Nodup)
    (hN : store.length = N)
    (hfresh : lookupKey store sid = none)
    (hlive : ∀ p ∈ store, ¬ (p.2.expires_at < now))
    (hp0 : p0 ∈ store)
    (hmin : ∀ q ∈ store, q ≠ p0 → p0.2.created_at < q.2.created_at) :
    memSet N now store sid data ttl
      = some (eraseKey store p0.1 ++ [(sid, ⟨data, now, now + ttl⟩)])
    ∧ lookupKey (eraseKey store p0.1 ++ [(sid, ⟨data, now, now + ttl⟩)]) p0.1
        = none
    ∧ (∀ q ∈ store, q ≠ p0 →
        q ∈ eraseKey store p0.1 ++ [(sid, ⟨data, now, now + ttl⟩)])
    ∧ (eraseKey store p0.1 ++ [(sid, (⟨data, now, now + ttl⟩ : TokenEntry))]).length
        = N := by
  have hclean : cleanupExpired now store = store := by
    apply List.filter_eq_self.mpr
    intro p hp
    exact decide_eq_true (hlive p hp)
  have hsidp0 : sid ≠ p0.1 := by
    intro heq
    rw [heq, lookupKey_some_of_mem store p0 hnodup hp0] at hfresh
    exact Option.noConfusion hfresh
  have herase_lookup : lookupKey (eraseKey store p0.1) sid = none := by
    rw [lookupKey_eraseKey_ne store p0.1 sid hsidp0]
    exact hfresh
  have hres : memSet N now store sid data ttl
      = some (eraseKey store p0.1 ++ [(sid, ⟨data, now, now + ttl⟩)]) := by
    simp only [memSet, hclean, oldestSession_of_unique_min store p0 hp0 hmin,
      if_pos (le_of_eq hN.symm)]
    rw [setKey_of_lookup_none _ sid _ herase_lookup]
  refine ⟨hres, ?_, ?_, ?_⟩
  · rw [lookupKey_append _ _ _ (lookupKey_eraseKey_self store p0.1 hnodup)]
    simp only [lookupKey]
    rw [if_neg hsidp0]
  · intro q hq hqp0
    have hqk : q.1 ≠ p0.1 := by
      intro hkeq
      have h1 := lookupKey_some_of_mem store q hnodup hq
      have h2 := lookupKey_some_of_mem store p0 hnodup hp0
      rw [hkeq, h2] at h1
      apply hqp0
      have hv : q.2 = p0.2 := Option.some.inj h1.symm
      calc q = (q.1, q.2) := rfl
        _ = (p0.1, p0.2) := by rw [hkeq, hv]
        _ = p0 := rfl
    exact List.mem_append.mpr (Or.inl (mem_eraseKey_of_mem p0.1 q hqk store hq))
  · rw [List.length_append, List.length_singleton]
    rw [eraseKey_length store p0 hp0, hN]

/-- Witness for C5: capacity 2, two live entries created at 0 and 5; a third
distinct key evicts exactly the `created_at = 0` entry. -/
theorem tokenStore_at_capacity_evicts_oldest_witness :
    memSet 2 10 [("a", ⟨"ta", 0, 100⟩), ("b", ⟨"tb", 5, 100⟩)] "c" "tc" 60
      = some [("b", ⟨"tb", 5, 100⟩), ("c", ⟨"tc", 10, 70⟩)]
    ∧ lookupKey [("b", (⟨"tb", 5, 100⟩ : TokenEntry)), ("c", ⟨"tc", 10, 70⟩)] "a"
        = none
    ∧ ("b", (⟨"tb", 5, 100⟩ : TokenEntry))
        ∈ [("b", (⟨"tb", 5, 100⟩ : TokenEntry)), ("c", ⟨"tc", 10, 70⟩)]
    ∧ ([("b", (⟨"tb", 5, 100⟩ : TokenEntry)), ("c", ⟨"tc", 10, 70⟩)]).length = 2 := by
  have h := tokenStore_at_capacity_evicts_oldest 2
    [("a", ⟨"ta", 0, 100⟩), ("b", ⟨"tb", 5, 100⟩)] "c" "tc" 60 10
    ("a", ⟨"ta", 0, 100⟩)
    (by simp)
    (by simp)
    (by simp [lookupKey])
    (by
      intro p hp
      rcases List.mem_cons.mp hp with rfl | hp
      · norm_num
      rcases List.mem_singleton.mp hp with rfl
      norm_num)
    (by simp)
    (by
      intro q hq hqne
      rcases List.mem_cons.mp hq with rfl | hq
      · exact absurd rfl hqne
      rcases List.mem_singleton.mp hq with rfl
      norm_num)
  obtain ⟨h1, h2, h3, h4⟩ := h
  refine ⟨?_, ?_, by simp, by simp⟩
  · norm_num [eraseKey] at h1
    exact h1
  · norm_num [eraseKey] at h2
    exact h2

theorem mem_key_inj {β : Type} (l : List (String × β))
    (hnodup : (l.map Prod.fst).Nodup) (r q : String × β)
    (hr : r ∈ l) (hq : q ∈ l) (hk : r.1 = q.1) : r = q := by
  have h1 := lookupKey_some_of_mem l r hnodup hr
  have h2 := lookupKey_some_of_mem l q hnodup hq
  rw [hk, h2] at h1
  have hv : r.2 = q.2 := (Option.some.inj h1).symm
  calc r = (r.1, r.2) := rfl
    _ = (q.1, q.2) := by rw [hk, hv]
    _ = q := rfl

theorem lookupKey_filter_none {β : Type} (l : List (String × β))
    (pred : String × β → Bool) (q : String × β)
    (hnodup : (l.map Prod.fst).Nodup) (hq : q ∈ l) (hpred : pred q = false) :
    lookupKey (l.filter pred) q.1 = none := by
  apply lookupKey_none_of_not_mem_keys
  intro r hr hrk
  have hrl := List.mem_filter.mp hr
  have : r = q := mem_key_inj l hnodup r q hrl.1 hq hrk
  rw [this, hpred] at hrl
  exact Bool.noConfusion hrl.2

theorem cleanupExpired_nodup (now : ℚ) (store : List (String × TokenEntry))
    (hnodup : (store.map Prod.fst).Nodup) :
    ((cleanupExpired now store).map Prod.fst).Nodup :=
  hnodup.sublist (List.Sublist.map Prod.fst (List.filter_sublist store))

/-- Claim C10: `set` purges every expired entry before the capacity check, so
a capacity eviction happens only while the store still holds at least its
capacity of unexpired entries (exactly the capacity, for a store within its
bound), and the evicted entry is an unexpired one of minimal `created_at`. -/
theorem tokenStore_set_purges_expired_before_capacity
    (N : ℕ) (store : List (String × TokenEntry)) (sid data : String)
    (ttl now : ℚ) (res : List (String × TokenEntry))
    (hnodup : (store.map Prod.fst).Nodup)
    (hres : memSet N now store sid data ttl = some res) :
    (∀ q ∈ store, q.1 ≠ sid → q.2.expires_at < now → lookupKey res q.1 = none)
    ∧ (∀ q ∈ store, q.1 ≠ sid → ¬ (q.2.expires_at < now) →
        lookupKey res q.1 = none →
        N ≤ (cleanupExpired now store).length
        ∧ (∀ p ∈ cleanupExpired now store, ¬ (p.2.expires_at < now))
        ∧ (∀ p ∈ cleanupExpired now store, q.2.created_at ≤ p.2.created_at)
        ∧ (store.length ≤ N → (cleanupExpired now store).length = N)) := by
  have hcnodup := cleanupExpired_nodup now store hnodup
  have hcmem : ∀ p ∈ cleanupExpired now store, ¬ (p.2.expires_at < now) := by
    intro p hp
    have := (List.mem_filter.mp hp).2
    exact of_decide_eq_true this
  have hclen : (cleanupExpired now store).length ≤ store.length :=
    List.length_filter_le _ store
  constructor
  · intro q hq hqsid hqexp
    have hqc : lookupKey (cleanupExpired now store) q.1 = none := by
      apply lookupKey_filter_none store _ q hnodup hq
      simp [hqexp]
    simp only [memSet] at hres
    by_cases hcap : N ≤ (cleanupExpired now store).length
    · rw [if_pos hcap] at hres
      cases hold : oldestSession (cleanupExpired now store) with
      | none => rw [hold] at hres; exact Option.noConfusion hres
      | some k0 =>
        rw [hold] at hres
        have hres2 := Option.some.inj hres
        rw [← hres2, lookupKey_setKey_ne _ sid q.1 _ hqsid]
        by_cases hk0 : q.1 = k0
        · rw [hk0]
          exact lookupKey_eraseKey_self _ k0 hcnodup
        · rw [lookupKey_eraseKey_ne _ k0 q.1 hk0]
          exact hqc
    · rw [if_neg hcap] at hres
      have hres2 := Option.some.inj hres
      rw [← hres2, lookupKey_setKey_ne _ sid q.1 _ hqsid]
      exact hqc
  · intro q hq hqsid hqlive hgone
    have hqc : q ∈ cleanupExpired now store := by
      apply List.mem_filter.mpr
      exact ⟨hq, by simp [hqlive]⟩
    have hqlook : lookupKey (cleanupExpired now store) q.1 = some q.2 :=
      lookupKey_some_of_mem _ q hcnodup hqc
    simp only [memSet] at hres
    by_cases hcap : N ≤ (cleanupExpired now store).length
    · rw [if_pos hcap] at hres
      cases hold : oldestSession (cleanupExpired now store) with
      | none => rw [hold] at hres; exact Option.noConfusion hres
      | some k0 =>
        rw [hold] at hres
        have hres2 := Option.some.inj hres
        rw [← hres2, lookupKey_setKey_ne _ sid q.1 _ hqsid] at hgone
        have hk0 : q.1 = k0 := by
          by_contra hk0
          rw [lookupKey_eraseKey_ne _ k0 q.1 hk0, hqlook] at hgone
          exact Option.noConfusion hgone
        obtain ⟨m, hm, hmk, hmall⟩ := oldestSession_attains _ k0 hold
        have hmq : m = q :=
          mem_key_inj _ hcnodup m q hm hqc (by rw [hmk, hk0])
        refine ⟨hcap, hcmem, ?_, ?_⟩
        · intro p hp
          rw [← hmq]
          exact hmall p hp
        · intro hle
          exact le_antisymm (le_trans hclen hle) hcap
    · rw [if_neg hcap] at hres
      have hres2 := Option.some.inj hres
      rw [← hres2, lookupKey_setKey_ne _ sid q.1 _ hqsid, hqlook] at hgone
      exact Option.noConfusion hgone

/-- Witness for C10: capacity 2, entries `a` (expired), `b`, `c`; inserting
`d` at `now = 10` purges `a` and capacity-evicts `b` (the unexpired entry
with minimal `created_at`). -/
theorem tokenStore_set_purges_expired_before_capacity_witness :
    memSet 2 10
        [("a", ⟨"ta", 0, 5⟩), ("b", ⟨"tb", 1, 100⟩), ("c", ⟨"tc", 2, 100⟩)]
        "d" "td" 60
      = some [("c", ⟨"tc", 2, 100⟩), ("d", ⟨"td", 10, 70⟩)]
    ∧ lookupKey [("c", (⟨"tc", 2, 100⟩ : TokenEntry)), ("d", ⟨"td", 10, 70⟩)] "a"
        = none
    ∧ 2 ≤ (cleanupExpired 10
        [("a", ⟨"ta", 0, 5⟩), ("b", ⟨"tb", 1, 100⟩), ("c", ⟨"tc", 2, 100⟩)]).length
    ∧ (∀ p ∈ cleanupExpired 10
        [("a", ⟨"ta", 0, 5⟩), ("b", ⟨"tb", 1, 100⟩), ("c", ⟨"tc", 2, 100⟩)],
        ¬ (p.2.expires_at < 10))
    ∧ (∀ p ∈ cleanupExpired 10
        [("a", ⟨"ta", 0, 5⟩), ("b", ⟨"tb", 1, 100⟩), ("c", ⟨"tc", 2, 100⟩)],
        (1 : ℚ) ≤ p.2.created_at) := by
  have hcd : ("c" : String) ≠ "d" := by decide
  have hcb : ("c" : String) ≠ "b" := by decide
  have hdb : ("d" : String) ≠ "b" := by decide
  have hres : memSet 2 10
      [("a", ⟨"ta", 0, 5⟩), ("b", ⟨"tb", 1, 100⟩), ("c", ⟨"tc", 2, 100⟩)]
      "d" "td" 60
      = some [("c", ⟨"tc", 2, 100⟩), ("d", ⟨"td", 10, 70⟩)] := by
    norm_num [memSet, cleanupExpired, oldestSession, oldestGo, eraseKey,
      setKey, List.filter_cons, hcd]
  have h := tokenStore_set_purges_expired_before_capacity 2
    [("a", ⟨"ta", 0, 5⟩), ("b", ⟨"tb", 1, 100⟩), ("c", ⟨"tc", 2, 100⟩)]
    "d" "td" 60 10
    [("c", ⟨"tc", 2, 100⟩), ("d", ⟨"td", 10, 70⟩)]
    (by decide) hres
  have ha := h.1 ("a", ⟨"ta", 0, 5⟩) (by simp) (by decide) (by norm_num)
  have hb := h.2 ("b", ⟨"tb", 1, 100⟩) (by simp) (by decide) (by norm_num)
    (by norm_num [lookupKey, hcb, hdb])
  exact ⟨hres, ha, hb.1, hb.2.1, hb.2.2.1⟩

/-! ## OAuth device flow — `src/app/auth/github_oauth.py`,
`GitHubOAuthService.poll_access_token`

`poll_access_token(device_code)` looks the code up in the in-memory table
(`invalid_device` when absent), expires it when past
`created_at + expires_in` (deleting the entry), reports `access_denied` for a
code already marked denied, and otherwise forwards the remote token
endpoint's answer: pending keeps the entry, `slow_down` updates its interval,
denied/expired delete it — but on a successful token response the code only
sets `status = "authorized"` and returns the token, leaving the entry in the
table. -/

/-- `DeviceCode.status` values. -/
inductive DCStatus where
  | pending
  | authorized
  | expired
  | denied
deriving DecidableEq

/-- The `DeviceCode` dataclass. -/
structure DeviceCode where
  device_code : String
  user_code : String
  verification_uri : String
  expires_in : ℚ
  interval : ℚ
  created_at : ℚ
  status : DCStatus
deriving DecidableEq

/-- Outcome of the HTTPS POST to the token endpoint, as the code inspects it:
an `error` field, an `access_token` field, neither, or a network failure. -/
inductive TokenResp where
  | errPending
  | errSlowDown (newInterval : ℚ)
  | errDenied
  | errExpired
  | errOther (e : String)
  | token (t : String)
  | noToken
  | netError
deriving DecidableEq

/-- `poll_access_token` — returns the `(access_token, error)` pair together
with the updated `device_codes` table. -/
def pollAccessToken (table : List (String × DeviceCode)) (device_code : String)
    (now : ℚ) (resp : TokenResp) :
    (Option String × String) × List (String × DeviceCode) :=
  match lookupKey table device_code with
  | none => ((none, "invalid_device"), table)
  | some dc =>
    if dc.created_at + dc.expires_in < now then
      ((none, "expired_token"), eraseKey table device_code)
    else if dc.status = DCStatus.denied then
      ((none, "access_denied"), table)
    else
      match resp with
      | .errPending => ((none, "authorization_pending"), table)
      | .errSlowDown i => ((none, "authorization_pending"),
          setKey table device_code {dc with interval := i})
      | .errDenied => ((none, "access_denied"), eraseKey table device_code)
      | .errExpired => ((none, "expired_token"), eraseKey table device_code)
      | .errOther e => ((none, e), table)
      | .token t => ((some t, ""),
          setKey table device_code {dc with status := DCStatus.authorized})
      | .noToken => ((none, "unknown_error"), table)
      | .netError => ((none, "network_error"), table)

/-- Counterexample to C1: polling a pending device code with a token response
returns the token but does NOT remove the entry (its status merely becomes
`authorized`), and a second poll of the same code is answered again with the
token — not with `invalid_device` — so the code re-authorizes. -/
theorem deviceCode_poll_token_counterexample :
    (pollAccessToken
        [("d1", ⟨"d1", "UC-1", "uri", 900, 5, 0, DCStatus.pending⟩)]
        "d1" 10 (TokenResp.token "tok")).2
      = [("d1", ⟨"d1", "UC-1", "uri", 900, 5, 0, DCStatus.authorized⟩)]
    ∧ (pollAccessToken
        [("d1", ⟨"d1", "UC-1", "uri", 900, 5, 0, DCStatus.authorized⟩)]
        "d1" 20 (TokenResp.token "tok")).1
      = (some "tok", "") := by
  have h1 : ¬ (DCStatus.pending = DCStatus.denied) := by decide
  have h2 : ¬ (DCStatus.authorized = DCStatus.denied) := by decide
  constructor
  · norm_num [pollAccessToken, lookupKey, setKey, h1]
  · norm_num [pollAccessToken, lookupKey, setKey, h2]

/-- Claim C1 (amended): on a token response for a pending, unexpired device
code, `poll` sets the status to `authorized` and returns the token, but the
entry stays in the table; any later poll of the same (still unexpired) code
does not return `invalid_device`, and a later poll whose remote response
carries a token returns that token again. -/
theorem deviceCode_poll_token_authorizes_but_keeps_entry
    (table : List (String × DeviceCode)) (code : String) (dc : DeviceCode)
    (now : ℚ) (t : String)
    (hfound : lookupKey table code = some dc)
    (hnotdenied : dc.status ≠ DCStatus.denied)
    (hnotexp : ¬ (dc.created_at + dc.expires_in < now)) :
    (pollAccessToken table code now (TokenResp.token t)).1 = (some t, "")
    ∧ (pollAccessToken table code now (TokenResp.token t)).2
        = setKey table code {dc with status := DCStatus.authorized}
    ∧ lookupKey (pollAccessToken table code now (TokenResp.token t)).2 code
        = some {dc with status := DCStatus.authorized}
    ∧ ∀ now2 resp2, ¬ (dc.created_at + dc.expires_in < now2) →
        (∀ e, resp2 = TokenResp.errOther e → e ≠ "invalid_device") →
        (pollAccessToken (pollAccessToken table code now (TokenResp.token t)).2
            code now2 resp2).1.2 ≠ "invalid_device"
        ∧ ∀ t2, resp2 = TokenResp.token t2 →
            (pollAccessToken
              (pollAccessToken table code now (TokenResp.token t)).2
              code now2 resp2).1 = (some t2, "") := by
  have hpoll : pollAccessToken table code now (TokenResp.token t)
      = ((some t, ""),
         setKey table code {dc with status := DCStatus.authorized}) := by
    simp only [pollAccessToken, hfound, if_neg hnotexp, if_neg hnotdenied]
  have hlook2 : lookupKey
      (setKey table code {dc with status := DCStatus.authorized}) code
      = some {dc with status := DCStatus.authorized} :=
    lookupKey_setKey_self table code _
  refine ⟨by rw [hpoll], by rw [hpoll], by rw [hpoll]; exact hlook2, ?_⟩
  intro now2 resp2 hnotexp2 hother
  rw [hpoll]
  have hnd2 : ¬ ({dc with status := DCStatus.authorized}.status
      = DCStatus.denied) := by simp
  have hne2 : ¬ ({dc with status := DCStatus.authorized}.created_at
      + {dc with status := DCStatus.authorized}.expires_in < now2) := by
    simpa using hnotexp2
  constructor
  · cases resp2 with
    | errOther e =>
      simp only [pollAccessToken, hlook2, if_neg hne2, if_neg hnd2]
      exact hother e rfl
    | errPending =>
      simp only [pollAccessToken, hlook2, if_neg hne2, if_neg hnd2]
      decide
    | errSlowDown i =>
      simp only [pollAccessToken, hlook2, if_neg hne2, if_neg hnd2]
      decide
    | errDenied =>
      simp only [pollAccessToken, hlook2, if_neg hne2, if_neg hnd2]
      decide
    | errExpired =>
      simp only [pollAccessToken, hlook2, if_neg hne2, if_neg hnd2]
      decide
    | token t2 =>
      simp only [pollAccessToken, hlook2, if_neg hne2, if_neg hnd2]
      decide
    | noToken =>
      simp only [pollAccessToken, hlook2, if_neg hne2, if_neg hnd2]
      decide
    | netError =>
      simp only [pollAccessToken, hlook2, if_neg hne2, if_neg hnd2]
      decide
  · intro t2 hresp2
    subst hresp2
    simp only [pollAccessToken, hlook2, if_neg hne2, if_neg hnd2]

/-- Witness for the amended C1 on a concrete pending code, polled with a
token response at `now = 10` and again at `now2 = 20`. -/
theorem deviceCode_poll_token_authorizes_but_keeps_entry_witness :
    (pollAccessToken
        [("d1", ⟨"d1", "UC-1", "uri", 900, 5, 0, DCStatus.pending⟩)]
        "d1" 10 (TokenResp.token "tok")).1 = (some "tok", "")
    ∧ lookupKey (pollAccessToken
        [("d1", ⟨"d1", "UC-1", "uri", 900, 5, 0, DCStatus.pending⟩)]
        "d1" 10 (TokenResp.token "tok")).2 "d1"
      = some ⟨"d1", "UC-1", "uri", 900, 5, 0, DCStatus.authorized⟩
    ∧ (pollAccessToken (pollAccessToken
        [("d1", ⟨"d1", "UC-1", "uri", 900, 5, 0, DCStatus.pending⟩)]
        "d1" 10 (TokenResp.token "tok")).2
        "d1" 20 (TokenResp.token "tok2")).1 = (some "tok2", "") := by
  have h := deviceCode_poll_token_authorizes_but_keeps_entry
    [("d1", ⟨"d1", "UC-1", "uri", 900, 5, 0, DCStatus.pending⟩)]
    "d1" ⟨"d1", "UC-1", "uri", 900, 5, 0, DCStatus.pending⟩ 10 "tok"
    (by norm_num [lookupKey]) (by decide) (by norm_num)
  have h4 := (h.2.2.2 20 (TokenResp.token "tok2") (by norm_num)
    (by intro e he; simp at he)).2 "tok2" rfl
  exact ⟨h.1, h.2.2.1, h4⟩

/-! ## Disk-quota sweep — `src/app/session_manager.py`,
`SessionManager.cleanup_disk_space`

If total usage exceeds `max_bytes`, sessions are sorted ascending by
`last_access` (Python `sorted` is stable; modelled by a stable insertion
sort) and deleted in that order, re-checking usage before each deletion and
stopping as soon as usage is within the ceiling. -/

/-- A session as the sweep sees it: id, last-access time, and the total size
of its directory (deleting the session removes that contribution). -/
structure Sess where
  id : String
  lastAccess : ℚ
  size : ℕ
deriving DecidableEq

/-- `get_total_disk_usage` — sum of the sizes of all session directories. -/
def usage (l : List Sess) : ℕ :=
  (l.map Sess.size).sum

/-- Stable insertion of a session into a list sorted by `last_access`:
the new element goes before the first element it is `≤`-related to, so
earlier input elements precede equal later ones. -/
def pyInsert (a : Sess) : List Sess → List Sess
  | [] => [a]
  | b :: l => if a.lastAccess ≤ b.lastAccess then a :: b :: l else b :: pyInsert a l

/-- Python `sorted(sessions, key=last_access)` — a stable sort realised as
insertion sort (any stable sort by this key produces this list). -/
def pySorted : List Sess → List Sess
  | [] => []
  | x :: xs => pyInsert x (pySorted xs)

/-- `del` of the session record with the given id (Python dict deletion:
first — unique — occurrence). -/
def eraseId : List Sess → String → List Sess
  | [], _ => []
  | s :: l, i => if s.id = i then l else s :: eraseId l i

/-- `session_id in self.sessions` — `delete_session` returns `False` when the
id is already gone. -/
def containsId (l : List Sess) (i : String) : Bool :=
  l.any (fun s => s.id = i)

/-- The eviction loop of `cleanup_disk_space`: walk the sorted snapshot,
stopping once usage is within the ceiling, else deleting the session and
counting it. -/
def sweepLoop (maxBytes : ℕ) : List Sess → List Sess → ℕ → List Sess × ℕ
  | cur, [], n => (cur, n)
  | cur, s :: rest, n =>
    if usage cur ≤ maxBytes then (cur, n)
    else
      sweepLoop maxBytes (eraseId cur s.id) rest
        (if containsId cur s.id then n + 1 else n)

/-- `cleanup_disk_space` — no-op when under the ceiling, else run the
least-recently-accessed-first eviction loop. -/
def cleanupDiskSpace (maxBytes : ℕ) (l : List Sess) : List Sess × ℕ :=
  if usage l ≤ maxBytes then (l, 0)
  else sweepLoop maxBytes l (pySorted l) 0

theorem pyInsert_perm (a : Sess) (l : List Sess) :
    (pyInsert a l).Perm (a :: l) := by
  induction l with
  | nil => simp [pyInsert]
  | cons b l ih =>
    by_cases h : a.lastAccess ≤ b.lastAccess
    · simp [pyInsert, h]
    · simp only [pyInsert, if_neg h]
      exact (List.Perm.cons b ih).trans (List.Perm.swap a b l)

theorem pySorted_perm (l : List Sess) : (pySorted l).Perm l := by
  induction l with
  | nil => simp [pySorted]
  | cons x xs ih =>
    exact (pyInsert_perm x (pySorted xs)).trans (List.Perm.cons x ih)

theorem pyInsert_sorted (a : Sess) (l : List Sess)
    (hl : l.Pairwise (fun x y => x.lastAccess ≤ y.lastAccess)) :
    (pyInsert a l).Pairwise (fun x y => x.lastAccess ≤ y.lastAccess) := by
  induction l with
  | nil => simp [pyInsert]
  | cons b l ih =>
    obtain ⟨hb, hl2⟩ := List.pairwise_cons.mp hl
    by_cases h : a.lastAccess ≤ b.lastAccess
    · simp only [pyInsert, if_pos h]
      apply List.pairwise_cons.mpr
      refine ⟨?_, hl⟩
      intro c hc
      rcases List.mem_cons.mp hc with rfl | hc
      · exact h
      · exact le_trans h (hb c hc)
    · simp only [pyInsert, if_neg h]
      apply List.pairwise_cons.mpr
      refine ⟨?_, ih hl2⟩
      intro c hc
      have hmem := (pyInsert_perm a l).mem_iff.mp hc
      rcases List.mem_cons.mp hmem with rfl | hmem
      · exact le_of_not_le h
      · exact hb c hmem

theorem pySorted_sorted (l : List Sess) :
    (pySorted l).Pairwise (fun x y => x.lastAccess ≤ y.lastAccess) := by
  induction l with
  | nil => simp [pySorted]
  | cons x xs ih => exact pyInsert_sorted x (pySorted xs) ih

theorem eraseId_eq_erase (s : Sess) :
    ∀ cur : List Sess, (∀ x ∈ cur, x.id = s.id → x = s) →
    eraseId cur s.id = cur.erase s := by
  intro cur
  induction cur with
  | nil => intro _; rfl
  | cons p l ih =>
    intro huniq
    by_cases hp : p.id = s.id
    · have hps : p = s := huniq p (by simp) hp
      rw [hps]
      simp [eraseId]
    · have hpne : p ≠ s := fun h => hp (by rw [h])
      rw [List.erase_cons_tail]
      · simp only [eraseId, if_neg hp]
        rw [ih (fun x hx hid => huniq x (by simp [hx]) hid)]
      · simp [hpne]

theorem eraseId_perm_rest (s : Sess) (rest cur : List Sess)
    (hperm : cur.Perm (s :: rest))
    (hnodup : ((s :: rest).map Sess.id).Nodup) :
    (eraseId cur s.id).Perm rest := by
  have huniq : ∀ x ∈ cur, x.id = s.id → x = s := by
    intro x hx hid
    have hx2 : x ∈ s :: rest := hperm.mem_iff.mp hx
    rcases List.mem_cons.mp hx2 with rfl | hx2
    · rfl
    · exfalso
      have : x.id ∈ rest.map Sess.id := List.mem_map_of_mem Sess.id hx2
      rw [hid] at this
      exact (List.nodup_cons.mp hnodup).1 this
  rw [eraseId_eq_erase s cur huniq]
  have h2 := hperm.erase s
  rw [List.erase_cons_head] at h2
  exact h2

theorem sweepLoop_spec (maxB : ℕ) :
    ∀ (pending cur : List Sess) (n : ℕ),
    cur.Perm pending →
    ((pending.map Sess.id)).Nodup →
    pending.Pairwise (fun x y => x.lastAccess ≤ y.lastAccess) →
    (usage (sweepLoop maxB cur pending n).1 ≤ maxB
      ∨ (sweepLoop maxB cur pending n).1 = [])
    ∧ ∃ k, (sweepLoop maxB cur pending n).1.Perm (pending.drop k) := by
  intro pending
  induction pending with
  | nil =>
    intro cur n hperm _ _
    have hc : cur = [] := List.perm_nil.mp hperm
    subst hc
    exact ⟨Or.inr rfl, 0, by simp [sweepLoop]⟩
  | cons s rest ih =>
    intro cur n hperm hnodup hsorted
    by_cases hu : usage cur ≤ maxB
    · simp only [sweepLoop, if_pos hu]
      exact ⟨Or.inl hu, 0, by simpa using hperm⟩
    · simp only [sweepLoop, if_neg hu]
      have hperm2 : (eraseId cur s.id).Perm rest :=
        eraseId_perm_rest s rest cur hperm hnodup
      obtain ⟨h1, k, h2⟩ := ih (eraseId cur s.id)
        (if containsId cur s.id then n + 1 else n) hperm2
        (by
          have := hnodup
          rw [List.map_cons, List.nodup_cons] at this
          exact this.2)
        ((List.pairwise_cons.mp hsorted).2)
      exact ⟨h1, k + 1, by simpa using h2⟩

/-- Claim C4: the disk-quota sweep stops with usage at or below the ceiling
or with no sessions left; any session it evicted has a last-access time no
later than that of every surviving session (never evicting a newer session
while an older one remains); and when usage is already within the ceiling it
is a no-op. -/
theorem diskSweep_evicts_lru_until_under_ceiling
    (maxB : ℕ) (l : List Sess) (hnodup : (l.map Sess.id).Nodup) :
    (usage (cleanupDiskSpace maxB l).1 ≤ maxB
      ∨ (cleanupDiskSpace maxB l).1 = [])
    ∧ (∀ e ∈ l, (∀ v ∈ (cleanupDiskSpace maxB l).1, v.id ≠ e.id) →
        ∀ v ∈ (cleanupDiskSpace maxB l).1, e.lastAccess ≤ v.lastAccess)
    ∧ (usage l ≤ maxB → cleanupDiskSpace maxB l = (l, 0)) := by
  by_cases hu : usage l ≤ maxB
  · have hres : cleanupDiskSpace maxB l = (l, 0) := by
      simp [cleanupDiskSpace, hu]
    refine ⟨Or.inl (by rw [hres]; exact hu), ?_, fun _ => hres⟩
    intro e he hv v hvmem
    exfalso
    rw [hres] at hv
    exact hv e he rfl
  · have hres : cleanupDiskSpace maxB l = sweepLoop maxB l (pySorted l) 0 := by
      simp [cleanupDiskSpace, hu]
    have hsortednodup : ((pySorted l).map Sess.id).Nodup :=
      (hnodup.perm ((pySorted_perm l).map Sess.id).symm)
    obtain ⟨h1, k, hk⟩ := sweepLoop_spec maxB (pySorted l) l 0
      (pySorted_perm l).symm hsortednodup (pySorted_sorted l)
    rw [← hres] at h1 hk
    refine ⟨h1, ?_, fun h => absurd h hu⟩
    intro e he hv v hvmem
    have hesorted : e ∈ pySorted l := (pySorted_perm l).mem_iff.mpr he
    have hvdrop : v ∈ (pySorted l).drop k := hk.subset hvmem
    have hetake : e ∈ (pySorted l).take k := by
      have hsplit : e ∈ (pySorted l).take k ++ (pySorted l).drop k := by
        rw [List.take_append_drop]
        exact hesorted
      rcases List.mem_append.mp hsplit with h | h
      · exact h
      · exact absurd rfl (hv e (hk.mem_iff.mpr h))
    have hpair := pySorted_sorted l
    rw [← List.take_append_drop k (pySorted l)] at hpair
    exact (List.pairwise_append.mp hpair).2.2 e hetake v hvdrop

/-- Witness for C4: two sessions of size 10 each, ceiling 10; the sweep
deletes the `last_access = 1` session and keeps the `last_access = 5` one. -/
theorem diskSweep_evicts_lru_until_under_ceiling_witness :
    cleanupDiskSpace 10 [⟨"a", 5, 10⟩, ⟨"b", 1, 10⟩] = ([⟨"a", 5, 10⟩], 1)
    ∧ (usage (cleanupDiskSpace 10 [⟨"a", 5, 10⟩, ⟨"b", 1, 10⟩]).1 ≤ 10
        ∨ (cleanupDiskSpace 10 [⟨"a", 5, 10⟩, ⟨"b", 1, 10⟩]).1 = [])
    ∧ (∀ v ∈ (cleanupDiskSpace 10 [⟨"a", 5, 10⟩, ⟨"b", 1, 10⟩]).1,
        (⟨"b", 1, 10⟩ : Sess).lastAccess ≤ v.lastAccess) := by
  have heval : cleanupDiskSpace 10 [⟨"a", 5, 10⟩, ⟨"b", 1, 10⟩]
      = ([⟨"a", 5, 10⟩], 1) := by
    have hab : ¬ ("a" : String) = "b" := by decide
    have hba : ¬ ("b" : String) = "a" := by decide
    norm_num [cleanupDiskSpace, usage, sweepLoop, pySorted, pyInsert,
      eraseId, containsId, List.any_cons, hab, hba]
  have h := diskSweep_evicts_lru_until_under_ceiling 10
    [⟨"a", 5, 10⟩, ⟨"b", 1, 10⟩] (by decide)
  refine ⟨heval, h.1, ?_⟩
  apply h.2.1 ⟨"b", 1, 10⟩ (by simp)
  intro v hv
  rw [heval] at hv
  rcases List.mem_singleton.mp hv with rfl
  decide

/-! ## Git orchestrator — `src/app/git_service.py`

`pull_updates_async` and `git_commit` are modelled as functions from an
abstract environment (which git subprocesses succeed, what the repository
looks like) to the list of git commands actually invoked, in source order,
plus the resulting state / error.  Fetch failures inside `git_commit` and
stash-push failures inside the pull are caught and logged, so they affect
neither the trace shape nor control flow beyond the command itself. -/

/-- The git subprocess commands these two pipelines can invoke. -/
inductive GitCmd where
  | remoteShow
  | remoteSetUrl
  | remoteAdd
  | revParseAbbrev
  | revParseHead
  | fetch
  | symbolicRef
  | statusShort
  | statusPorcelain
  | stashPush
  | stashPop
  | merge
  | commit
  | push
  | deployRun
deriving DecidableEq

/-- `ensure_git_remote_config` — nothing for an empty url, otherwise
`remote -v` followed by `set-url` or `add` (failures are swallowed). -/
def remoteCfgCmds (gitRepo : String) (hasOrigin : Bool) : List GitCmd :=
  if gitRepo = "" then []
  else [GitCmd.remoteShow,
        if hasOrigin then GitCmd.remoteSetUrl else GitCmd.remoteAdd]

theorem remoteCfgCmds_count (c : GitCmd) (gitRepo : String) (hasOrigin : Bool)
    (h1 : c ≠ GitCmd.remoteShow) (h2 : c ≠ GitCmd.remoteSetUrl)
    (h3 : c ≠ GitCmd.remoteAdd) :
    (remoteCfgCmds gitRepo hasOrigin).count c = 0 := by
  rw [List.count_eq_zero]
  intro hc
  unfold remoteCfgCmds at hc
  by_cases hg : gitRepo = ""
  · rw [if_pos hg] at hc
    simp at hc
  · rw [if_neg hg] at hc
    rcases List.mem_cons.mp hc with rfl | hc
    · exact h1 rfl
    rcases List.mem_singleton.mp hc with rfl
    cases hasOrigin with
    | true => exact h2 (by simp)
    | false => exact h3 (by simp)

theorem not_mem_remoteCfgCmds (c : GitCmd) (gitRepo : String) (hasOrigin : Bool)
    (h1 : c ≠ GitCmd.remoteShow) (h2 : c ≠ GitCmd.remoteSetUrl)
    (h3 : c ≠ GitCmd.remoteAdd) :
    c ∉ remoteCfgCmds gitRepo hasOrigin := by
  intro hc
  have := remoteCfgCmds_count c gitRepo hasOrigin h1 h2 h3
  rw [List.count_eq_zero] at this
  exact this hc

/-- Resolution of the remote url: the session-level configuration when a
session id is given and its url is nonempty, else the global configuration. -/
def resolveRepo (sessionId : Option String) (sessionRepo configRepo : String) :
    String :=
  match sessionId with
  | none => configRepo
  | some _ => if sessionRepo = "" then configRepo else sessionRepo

/-- Everything `pull_updates_async` observes about the outside world. -/
structure PullEnv where
  hasGitDir : Bool
  sessionRepo : String
  configRepo : String
  hasOrigin : Bool
  hasInitialCommit : Bool
  fetchOk : Bool
  localChanges : Bool
  mergeOk : Bool

/-- `pull_updates_async` — command trace and error outcome.  The stash push
is guarded by `local_changes and has_initial_commit`, the stash pop by
`local_changes` alone. -/
def pullUpdates (env : PullEnv) (sessionId : Option String) :
    List GitCmd × Option String :=
  if env.hasGitDir = false then ([], some "not_a_git_repo")
  else
    let gitRepo := resolveRepo sessionId env.sessionRepo env.configRepo
    let t1 := remoteCfgCmds gitRepo env.hasOrigin
      ++ [GitCmd.revParseAbbrev, GitCmd.revParseHead, GitCmd.fetch]
    if env.fetchOk = false then (t1, some "pull_failed")
    else
      let t3 := t1 ++ [GitCmd.symbolicRef, GitCmd.statusPorcelain]
        ++ (if env.localChanges && env.hasInitialCommit
            then [GitCmd.stashPush] else [])
        ++ [GitCmd.merge]
      if env.mergeOk = false then (t3, some "pull_failed")
      else
        (t3 ++ (if env.localChanges then [GitCmd.stashPop] else []), none)

/-- Counterexample to C2: a pull on a repository with no commits yet but with
local uncommitted changes does invoke a stash command — `git stash pop` runs
(its guard is `local_changes`, not "a stash was taken"), even though
`stash push` was skipped and the merge proceeded. -/
theorem pull_no_commits_still_pops_stash_counterexample :
    GitCmd.stashPop ∈ (pullUpdates
      ⟨true, "", "url", true, false, true, true, true⟩ none).1
    ∧ GitCmd.stashPush ∉ (pullUpdates
      ⟨true, "", "url", true, false, true, true, true⟩ none).1
    ∧ GitCmd.merge ∈ (pullUpdates
      ⟨true, "", "url", true, false, true, true, true⟩ none).1 := by
  decide

/-- Claim C2 (amended): on a repository with no commits yet, the pull never
invokes `stash push` and (once fetch succeeds) still merges; but a
`stash pop` is still attempted whenever local changes were detected — even
though no stash was taken — and only a change-free pull runs no stash
command at all. -/
theorem pull_no_commits_skips_push_merges_but_pops
    (env : PullEnv) (sessionId : Option String)
    (hnoinit : env.hasInitialCommit = false) :
    GitCmd.stashPush ∉ (pullUpdates env sessionId).1
    ∧ (env.hasGitDir = true → env.fetchOk = true →
        GitCmd.merge ∈ (pullUpdates env sessionId).1)
    ∧ (env.hasGitDir = true → env.fetchOk = true → env.mergeOk = true →
        env.localChanges = true →
        GitCmd.stashPop ∈ (pullUpdates env sessionId).1)
    ∧ (env.localChanges = false →
        GitCmd.stashPop ∉ (pullUpdates env sessionId).1) := by
  obtain ⟨g, sr, cr, ho, hi, f, lc, m⟩ := env
  replace hnoinit : hi = false := hnoinit
  subst hnoinit
  have hrc1 := not_mem_remoteCfgCmds GitCmd.stashPush
    (resolveRepo sessionId sr cr) ho (by decide) (by decide) (by decide)
  have hrc2 := not_mem_remoteCfgCmds GitCmd.stashPop
    (resolveRepo sessionId sr cr) ho (by decide) (by decide) (by decide)
  refine ⟨?_, ?_, ?_, ?_⟩
  · cases g <;> cases f <;> cases m <;> cases lc <;>
      simp [pullUpdates, hrc1]
  · intro hg hf
    replace hg : g = true := hg
    replace hf : f = true := hf
    subst hg
    subst hf
    cases m <;> cases lc <;> simp [pullUpdates]
  · intro hg hf hm hl
    replace hg : g = true := hg
    replace hf : f = true := hf
    replace hm : m = true := hm
    replace hl : lc = true := hl
    subst hg
    subst hf
    subst hm
    subst hl
    simp [pullUpdates]
  · intro hl
    replace hl : lc = false := hl
    subst hl
    cases g <;> cases f <;> cases m <;>
      simp [pullUpdates, hrc2]

/-- Witness for the amended C2: concrete no-commits pull with local changes
(the counterexample environment), all subprocesses succeeding. -/
theorem pull_no_commits_skips_push_merges_but_pops_witness :
    GitCmd.stashPush ∉ (pullUpdates
      ⟨true, "", "url", true, false, true, true, true⟩ none).1
    ∧ GitCmd.merge ∈ (pullUpdates
      ⟨true, "", "url", true, false, true, true, true⟩ none).1
    ∧ GitCmd.stashPop ∈ (pullUpdates
      ⟨true, "", "url", true, false, true, true, true⟩ none).1 := by
  have h := pull_no_commits_skips_push_merges_but_pops
    ⟨true, "", "url", true, false, true, true, true⟩ none rfl
  exact ⟨h.1, h.2.1 rfl rfl, h.2.2.1 rfl rfl rfl rfl⟩

/-! ### `git_commit` — `src/app/git_service.py:269`

`git_commit` reads `git status -s` (an error there yields `[]`), returns
immediately when the status is empty, otherwise commits with one `-m` per
pretty-printed status line, resolves the remote url (session-level first,
then global; missing → HTTP 500 after the commit already happened),
configures the remote, reads the current branch, fetches (best-effort),
resolves the remote default branch, pushes, and runs the configured
post-push command.  A successful commit records the staged changes (the
HTTP routes run `git add -A` before calling `git_commit`), so the status
observed by a subsequent call with no intervening file changes is empty. -/

/-- Environment of one `git_commit` call. -/
structure CommitEnv where
  sessionRepo : String
  configRepo : String
  hasOrigin : Bool
  statusOk : Bool
  commitOk : Bool
  pushOk : Bool
  deployConfigured : Bool

/-- The workspace as `git status -s` reports it: the list of change lines.
A successful `git commit` empties it (all changes are staged — the routes
invoke `git add -A` first — and no file changes happen in between). -/
structure RepoState where
  changes : List String
deriving DecidableEq

/-- `git_commit` — command trace, resulting workspace state, error outcome. -/
def gitCommit (env : CommitEnv) (sessionId : Option String) (st : RepoState) :
    List GitCmd × RepoState × Option String :=
  let status := if env.statusOk then st.changes else []
  if status = [] then ([GitCmd.statusShort], st, none)
  else if env.commitOk = false then
    ([GitCmd.statusShort, GitCmd.commit], st, some "commit_failed")
  else
    let st2 : RepoState := ⟨[]⟩
    let gitRepo := resolveRepo sessionId env.sessionRepo env.configRepo
    if gitRepo = "" then
      ([GitCmd.statusShort, GitCmd.commit], st2, some "no_remote_configured")
    else
      let t := [GitCmd.statusShort, GitCmd.commit]
        ++ remoteCfgCmds gitRepo env.hasOrigin
        ++ [GitCmd.revParseAbbrev, GitCmd.fetch, GitCmd.symbolicRef,
            GitCmd.push]
      if env.pushOk = false then (t, st2, some "push_failed")
      else if env.deployConfigured then (t ++ [GitCmd.deployRun], st2, none)
      else (t, st2, none)

/-- Claim C7: with an empty status, `git_commit` is a no-op that invokes no
`git commit`; with a nonempty status and a succeeding commit, two successive
calls with no file changes in between perform exactly one `git commit`
invocation in total (the second call observes the emptied status and
no-ops). -/
theorem commit_pipeline_idempotent
    (env : CommitEnv) (sessionId : Option String) (st : RepoState)
    (hstatus : env.statusOk = true) (hcommit : env.commitOk = true) :
    (st.changes = [] →
      gitCommit env sessionId st = ([GitCmd.statusShort], st, none))
    ∧ (st.changes ≠ [] →
        (gitCommit env sessionId st).1.count GitCmd.commit = 1
        ∧ (gitCommit env sessionId st).2.1 = ⟨[]⟩
        ∧ (gitCommit env sessionId
            (gitCommit env sessionId st).2.1).1.count GitCmd.commit = 0
        ∧ (gitCommit env sessionId st).1.count GitCmd.commit
            + (gitCommit env sessionId
                (gitCommit env sessionId st).2.1).1.count GitCmd.commit
            = 1) := by
  obtain ⟨sr, cr, ho, so, co, po, dc⟩ := env
  replace hstatus : so = true := hstatus
  replace hcommit : co = true := hcommit
  subst hstatus
  subst hcommit
  have hrc : (remoteCfgCmds (resolveRepo sessionId sr cr) ho).count
      GitCmd.commit = 0 :=
    remoteCfgCmds_count GitCmd.commit _ ho
      (by decide) (by decide) (by decide)
  constructor
  · intro hempty
    simp [gitCommit, hempty]
  · intro hne
    have hsecond : gitCommit ⟨sr, cr, ho, true, true, po, dc⟩ sessionId ⟨[]⟩
        = ([GitCmd.statusShort], ⟨[]⟩, none) := by
      simp [gitCommit]
    have hfirst : (gitCommit ⟨sr, cr, ho, true, true, po, dc⟩ sessionId st).1.count
          GitCmd.commit = 1
        ∧ (gitCommit ⟨sr, cr, ho, true, true, po, dc⟩ sessionId st).2.1 = ⟨[]⟩ := by
      by_cases hg : resolveRepo sessionId sr cr = ""
      · constructor
        · simp [gitCommit, hne, hg]
        · simp [gitCommit, hne, hg]
      · cases po with
        | false =>
          constructor
          · simp [gitCommit, hne, hg]
            exact hrc
          · simp [gitCommit, hne, hg]
        | true =>
          cases dc with
          | false =>
            constructor
            · simp [gitCommit, hne, hg]
              exact hrc
            · simp [gitCommit, hne, hg]
          | true =>
            constructor
            · simp [gitCommit, hne, hg]
              exact hrc
            · simp [gitCommit, hne, hg]
    refine ⟨hfirst.1, hfirst.2, ?_, ?_⟩
    · rw [hfirst.2, hsecond]
      decide
    · rw [hfirst.1, hfirst.2, hsecond]
      decide

/-- Witness for C7: a concrete one-change workspace, everything succeeding;
the two-call chain performs exactly one `git commit`. -/
theorem commit_pipeline_idempotent_witness :
    (gitCommit ⟨"", "url", true, true, true, true, true⟩ none
        ⟨["M a.md"]⟩).1.count GitCmd.commit = 1
    ∧ (gitCommit ⟨"", "url", true, true, true, true, true⟩ none
        (gitCommit ⟨"", "url", true, true, true, true, true⟩ none
          ⟨["M a.md"]⟩).2.1).1.count GitCmd.commit = 0
    ∧ (gitCommit ⟨"", "url", true, true, true, true, true⟩ none
        ⟨["M a.md"]⟩).1.count GitCmd.commit
      + (gitCommit ⟨"", "url", true, true, true, true, true⟩ none
          (gitCommit ⟨"", "url", true, true, true, true, true⟩ none
            ⟨["M a.md"]⟩).2.1).1.count GitCmd.commit = 1
    ∧ gitCommit ⟨"", "url", true, true, true, true, true⟩ none ⟨[]⟩
        = ([GitCmd.statusShort], ⟨[]⟩, none) := by
  have h := commit_pipeline_idempotent ⟨"", "url", true, true, true, true, true⟩
    none ⟨["M a.md"]⟩ rfl rfl
  have h2 := h.2 (by simp)
  have h0 := commit_pipeline_idempotent ⟨"", "url", true, true, true, true, true⟩
    none ⟨[]⟩ rfl rfl
  exact ⟨h2.1, h2.2.2.1, h2.2.2.2, h0.1 rfl⟩

/-! ## Session registry — `src/app/session_manager.py`

`create_session` allocates a fresh uuid (modelled as a parameter), defaults
`user_id` to it, and computes `path = <root>/user_<user_id>` (the root prefix
is constant and omitted).  With `clean_old`, an existing session of the same
user is deleted first — `delete_session` removes the directory tree when it
exists and then the record.  The new record is stored and `os.makedirs`
recreates the path.  Filesystem effects are traced as `FsOp`s; `disk` is the
set of existing session directories. -/

/-- One session record (`self.sessions[sid]`). -/
structure SessData where
  userId : String
  path : String
  createdAt : ℚ
  lastAccess : ℚ
  gitRepo : String
  initialized : Bool
deriving DecidableEq

/-- Registry state: the sessions dict plus the directories present on disk. -/
structure SMState where
  sessions : List (String × SessData)
  disk : List String
deriving DecidableEq

/-- Traced filesystem operations. -/
inductive FsOp where
  | rmtree (p : String)
  | makedirs (p : String)
deriving DecidableEq

/-- `get_session_by_user_id` — first record (in insertion order) with the
given `user_id`. -/
def getSessionByUserId (sessions : List (String × SessData)) (uid : String) :
    Option (String × SessData) :=
  match sessions with
  | [] => none
  | p :: rest => if p.2.userId = uid then some p else getSessionByUserId rest uid

/-- `delete_session` — `False` for an unknown id; otherwise remove the
directory tree when it exists, then the record. -/
def deleteSession (st : SMState) (sid : String) : Bool × SMState × List FsOp :=
  match lookupKey st.sessions sid with
  | none => (false, st, [])
  | some d =>
    if d.path ∈ st.disk then
      (true, ⟨eraseKey st.sessions sid, st.disk.filter (fun q => q ≠ d.path)⟩,
        [FsOp.rmtree d.path])
    else
      (true, ⟨eraseKey st.sessions sid, st.disk⟩, [])

/-- `create_session` — `freshId` stands for the generated uuid4. -/
def createSession (st : SMState) (freshId : String) (userId : String)
    (cleanOld : Bool) (now : ℚ) : (String × String) × SMState × List FsOp :=
  let uid := if userId = "" then freshId else userId
  let path := "user_" ++ uid
  let cleaned :=
    if cleanOld ∧ uid ≠ "" then
      match getSessionByUserId st.sessions uid with
      | some old => ((deleteSession st old.1).2.1, (deleteSession st old.1).2.2)
      | none => (st, ([] : List FsOp))
    else (st, ([] : List FsOp))
  let sessions2 := setKey cleaned.1.sessions freshId ⟨uid, path, now, now, "", false⟩
  let disk2 := if path ∈ cleaned.1.disk then cleaned.1.disk
    else cleaned.1.disk ++ [path]
  ((freshId, path), ⟨sessions2, disk2⟩, cleaned.2 ++ [FsOp.makedirs path])

theorem getSessionByUserId_append_none (l1 l2 : List (String × SessData))
    (uid : String) (h : getSessionByUserId l1 uid = none) :
    getSessionByUserId (l1 ++ l2) uid = getSessionByUserId l2 uid := by
  induction l1 with
  | nil => rfl
  | cons p l1 ih =>
    by_cases hp : p.2.userId = uid
    · simp [getSessionByUserId, hp] at h
    · simp only [getSessionByUserId, if_neg hp] at h
      simp only [List.cons_append, getSessionByUserId, if_neg hp]
      exact ih h

theorem eraseKey_append_single {β : Type} (l : List (String × β)) (k : String)
    (v : β) (h : lookupKey l k = none) : eraseKey (l ++ [(k, v)]) k = l := by
  induction l with
  | nil => simp [eraseKey]
  | cons p l ih =>
    by_cases hp : p.1 = k
    · simp [lookupKey, hp] at h
    · simp only [lookupKey, if_neg hp] at h
      simp only [List.cons_append, eraseKey, if_neg hp]
      exact congrArg (fun x => p :: x) (ih h)

/-- Counterexample to C3: two `create(u, clean_old=true)` calls for the same
user share the path `user_<u>`; the second call deletes the first session's
directory but immediately recreates the same path, so the first session's
directory does exist on disk afterwards. -/
theorem sessionManager_create_twice_counterexample :
    (createSession (⟨[], []⟩ : SMState) "id1" "u" true 0).1.2 = "user_u"
    ∧ (createSession (createSession (⟨[], []⟩ : SMState) "id1" "u" true 0).2.1
        "id2" "u" true 1).2.1.disk = ["user_u"] := by
  constructor
  · rfl
  · decide

/-- Claim C3 (amended): two successive `create(u, clean_old=true)` calls
yield the two distinct fresh ids; the second call deletes the first
session's registry record and removes its directory tree (`rmtree`), but —
both sessions of one user sharing the path `user_<u>` — the path is
immediately recreated (`makedirs`) for the new session, so after the second
call the first session's directory path exists on disk again (as the fresh,
emptied workspace of the second session). -/
theorem sessionManager_create_twice_same_user
    (st : SMState) (uid id1 id2 : String) (t1 t2 : ℚ)
    (huid : uid ≠ "") (hid12 : id2 ≠ id1)
    (hnouser : getSessionByUserId st.sessions uid = none)
    (hid1 : lookupKey st.sessions id1 = none)
    (hid2 : lookupKey st.sessions id2 = none) :
    (createSession st id1 uid true t1).1 = (id1, "user_" ++ uid)
    ∧ (createSession (createSession st id1 uid true t1).2.1
        id2 uid true t2).1 = (id2, "user_" ++ uid)
    ∧ lookupKey (createSession (createSession st id1 uid true t1).2.1
        id2 uid true t2).2.1.sessions id1 = none
    ∧ lookupKey (createSession (createSession st id1 uid true t1).2.1
        id2 uid true t2).2.1.sessions id2
      = some ⟨uid, "user_" ++ uid, t2, t2, "", false⟩
    ∧ ("user_" ++ uid)
        ∈ (createSession (createSession st id1 uid true t1).2.1
            id2 uid true t2).2.1.disk
    ∧ (createSession (createSession st id1 uid true t1).2.1
        id2 uid true t2).2.2
      = [FsOp.rmtree ("user_" ++ uid), FsOp.makedirs ("user_" ++ uid)] := by
  have hr1 : createSession st id1 uid true t1
      = ((id1, "user_" ++ uid),
         ⟨st.sessions ++ [(id1, ⟨uid, "user_" ++ uid, t1, t1, "", false⟩)],
          if ("user_" ++ uid) ∈ st.disk then st.disk
          else st.disk ++ ["user_" ++ uid]⟩,
         [FsOp.makedirs ("user_" ++ uid)]) := by
    simp only [createSession, if_neg huid, hnouser]
    rw [if_pos ⟨trivial, huid⟩]
    rw [setKey_of_lookup_none st.sessions id1 _ hid1]
    rfl
  have hdiskMid : ("user_" ++ uid)
      ∈ (if ("user_" ++ uid) ∈ st.disk then st.disk
         else st.disk ++ ["user_" ++ uid]) := by
    by_cases hd : ("user_" ++ uid) ∈ st.disk
    · rw [if_pos hd]
      exact hd
    · rw [if_neg hd]
      simp
  have hfindMid : getSessionByUserId
      (st.sessions ++ [(id1, ⟨uid, "user_" ++ uid, t1, t1, "", false⟩)]) uid
      = some (id1, ⟨uid, "user_" ++ uid, t1, t1, "", false⟩) := by
    rw [getSessionByUserId_append_none st.sessions _ uid hnouser]
    simp [getSessionByUserId]
  have hlookMid : lookupKey
      (st.sessions ++ [(id1, ⟨uid, "user_" ++ uid, t1, t1, "", false⟩)]) id1
      = some ⟨uid, "user_" ++ uid, t1, t1, "", false⟩ := by
    rw [lookupKey_append st.sessions _ id1 hid1]
    simp [lookupKey]
  have hdelMid : deleteSession
      (⟨st.sessions ++ [(id1, ⟨uid, "user_" ++ uid, t1, t1, "", false⟩)],
        if ("user_" ++ uid) ∈ st.disk then st.disk
        else st.disk ++ ["user_" ++ uid]⟩ : SMState) id1
      = (true,
         ⟨st.sessions,
          (if ("user_" ++ uid) ∈ st.disk then st.disk
           else st.disk ++ ["user_" ++ uid]).filter
            (fun q => q ≠ ("user_" ++ uid))⟩,
         [FsOp.rmtree ("user_" ++ uid)]) := by
    simp only [deleteSession, hlookMid]
    rw [if_pos hdiskMid]
    rw [eraseKey_append_single st.sessions id1 _ hid1]
  have hr2 : createSession (createSession st id1 uid true t1).2.1
      id2 uid true t2
      = ((id2, "user_" ++ uid),
         ⟨st.sessions ++ [(id2, ⟨uid, "user_" ++ uid, t2, t2, "", false⟩)],
          ((if ("user_" ++ uid) ∈ st.disk then st.disk
            else st.disk ++ ["user_" ++ uid]).filter
            (fun q => q ≠ ("user_" ++ uid))) ++ ["user_" ++ uid]⟩,
         [FsOp.rmtree ("user_" ++ uid), FsOp.makedirs ("user_" ++ uid)]) := by
    rw [hr1]
    simp only [createSession, if_neg huid, hfindMid, hdelMid]
    rw [if_pos ⟨trivial, huid⟩]
    rw [setKey_of_lookup_none st.sessions id2 _ hid2]
    rw [if_neg (by
      intro hmem
      have h2 := (List.mem_filter.mp hmem).2
      simp at h2)]
    rfl
  refine ⟨by rw [hr1], by rw [hr2], ?_, ?_, ?_, by rw [hr2]⟩
  · rw [hr2]
    simp only []
    rw [lookupKey_append st.sessions _ id1 hid1]
    simp [lookupKey, hid12]
  · rw [hr2]
    simp only []
    rw [lookupKey_append st.sessions _ id2 hid2]
    simp [lookupKey]
  · rw [hr2]
    simp

/-- Witness for the amended C3 starting from an empty registry and empty
disk, user `u`, fresh ids `id1` then `id2`. -/
theorem sessionManager_create_twice_same_user_witness :
    (createSession (⟨[], []⟩ : SMState) "id1" "u" true 0).1 = ("id1", "user_u")
    ∧ (createSession (createSession (⟨[], []⟩ : SMState) "id1" "u" true 0).2.1
        "id2" "u" true 1).1 = ("id2", "user_u")
    ∧ lookupKey (createSession
        (createSession (⟨[], []⟩ : SMState) "id1" "u" true 0).2.1
        "id2" "u" true 1).2.1.sessions "id1" = none
    ∧ ("user_u")
        ∈ (createSession (createSession (⟨[], []⟩ : SMState) "id1" "u" true 0).2.1
            "id2" "u" true 1).2.1.disk
    ∧ (createSession (createSession (⟨[], []⟩ : SMState) "id1" "u" true 0).2.1
        "id2" "u" true 1).2.2
      = [FsOp.rmtree "user_u", FsOp.makedirs "user_u"] := by
  have h := sessionManager_create_twice_same_user ⟨[], []⟩ "u" "id1" "id2" 0 1
    (by decide) (by decide) rfl rfl rfl
  exact ⟨h.1, h.2.1, h.2.2.1, h.2.2.2.2.1, h.2.2.2.2.2⟩

/-! ## Commit-message builder — `src/app/file_service.py`, `pretty_git_status`

Status lines are Python strings, modelled as `List Char`.  The function
counts raw lines whose stripped form starts with `"D "`; more than 20 such
lines marks a first-sync initialization.  Each line is stripped and split
once on whitespace into a flag and a path; blank and `"Am"`-prefixed lines
and entries under reserved system paths contribute nothing; during
initialization, `D`-flag entries contribute nothing; otherwise a
human-readable line is produced (with a best-effort title for `index.md`
paths, modelled by the `getTitle` parameter), unknown shapes passing through
verbatim. -/

/-- Whitespace as Python `str.strip` / `str.split` see it. -/
def isPySpace (c : Char) : Bool :=
  c == ' ' || c == '\t' || c == '\n' || c == '\r' || c == '\x0b' || c == '\x0c'

/-- `s.strip()`. -/
def pyStrip (s : List Char) : List Char :=
  ((s.dropWhile isPySpace).reverse.dropWhile isPySpace).reverse

/-- `s.split(maxsplit=1)`. -/
def pySplitOnce (s : List Char) : List (List Char) :=
  let t := s.dropWhile isPySpace
  let flag := t.takeWhile (fun c => ! isPySpace c)
  let rest := (t.dropWhile (fun c => ! isPySpace c)).dropWhile isPySpace
  if flag = [] then []
  else if rest = [] then [flag]
  else [flag, rest]

/-- The reserved system directories and files filtered from the status. -/
def system_paths : List (List Char) :=
  [".sessions".toList, ".git".toList, ".github".toList, ".vscode".toList,
   ".idea".toList, "__pycache__".toList, ".pytest_cache".toList,
   "node_modules".toList, ".env".toList, ".env.local".toList,
   ".env.*.local".toList]

/-- `filepath.split('/')[0]`. -/
def firstPathPart (fp : List Char) : List Char :=
  fp.takeWhile (fun c => ! (c == '/'))

/-- The reserved-path filter of the loop body. -/
def reservedEntry (fp : List Char) : Bool :=
  system_paths.contains (firstPathPart fp)
    || (".sessions/".toList).isPrefixOf fp
    || (".git/".toList).isPrefixOf fp

/-- The two-token branch of the `pretty_git_status` loop body: `s` is the
stripped line, `flag`/`filepath` the split result. -/
def statusEntryBody (getTitle : List Char → List Char) (isInit : Bool)
    (s flag filepath : List Char) : List (List Char) :=
  if reservedEntry filepath then []
  else if isInit ∧ (flag = "D".toList ∨ flag = " D".toList) then []
  else if flag = "M".toList ∨ flag = " M".toList ∨ flag = "M ".toList then
    ["Modified ".toList ++ getTitle filepath ++ " ".toList ++ filepath]
  else if flag = "A".toList ∨ flag = " A".toList ∨ flag = "A ".toList then
    ["Added ".toList ++ getTitle filepath ++ " ".toList ++ filepath]
  else if flag = "D".toList ∨ flag = " D".toList ∨ flag = "D ".toList then
    ["Deleted ".toList ++ filepath]
  else if flag = "??".toList then ["Untracked ".toList ++ filepath]
  else if flag = "R".toList then ["Renamed ".toList ++ filepath]
  else [s]

/-- One iteration of the `pretty_git_status` loop: the message lines this
status entry contributes. -/
def statusEntryLines (getTitle : List Char → List Char) (isInit : Bool)
    (status : List Char) : List (List Char) :=
  let s := pyStrip status
  if s = [] then []
  else if ("Am".toList).isPrefixOf s then []
  else
    match pySplitOnce s with
    | [flag, filepath] => statusEntryBody getTitle isInit s flag filepath
    | _ => [s]

theorem statusEntryLines_eq_body (getTitle : List Char → List Char)
    (isInit : Bool) (status flag fp : List Char)
    (h0 : pyStrip status ≠ [])
    (hAm : ("Am".toList).isPrefixOf (pyStrip status) = false)
    (hsplit : pySplitOnce (pyStrip status) = [flag, fp]) :
    statusEntryLines getTitle isInit status
      = statusEntryBody getTitle isInit (pyStrip status) flag fp := by
  simp only [statusEntryLines]
  rw [if_neg h0, if_neg (by rw [hAm]; exact Bool.false_ne_true), hsplit]

theorem statusEntryLines_fallback (getTitle : List Char → List Char)
    (isInit : Bool) (status : List Char)
    (h0 : pyStrip status ≠ [])
    (hAm : ("Am".toList).isPrefixOf (pyStrip status) = false)
    (hsplit : ∀ flag fp, pySplitOnce (pyStrip status) ≠ [flag, fp]) :
    statusEntryLines getTitle isInit status = [pyStrip status] := by
  simp only [statusEntryLines]
  rw [if_neg h0, if_neg (by rw [hAm]; exact Bool.false_ne_true)]

/-- `sum(1 for s in status_result if s.strip().startswith('D '))`. -/
def rawDeleteCount (l : List (List Char)) : ℕ :=
  (l.filter (fun s => ("D ".toList).isPrefixOf (pyStrip s))).length

/-- `delete_count > 20` — the first-sync bulk-delete heuristic. -/
def isInitialization (l : List (List Char)) : Bool :=
  decide (20 < rawDeleteCount l)

/-- `pretty_git_status`, parametrised by the front-matter title reader. -/
def pretty_git_status (getTitle : List Char → List Char)
    (status_result : List (List Char)) : List (List Char) :=
  (status_result.map
    (statusEntryLines getTitle (isInitialization status_result))).flatten

/-- A status entry that survives the reserved-path filter and is a deletion:
it splits into the flag `"D"` and a non-reserved path. -/
def isFilteredDeletion (s : List Char) : Bool :=
  match pySplitOnce (pyStrip s) with
  | [flag, fp] => flag == "D".toList && ! reservedEntry fp
  | _ => false

/-- Number of deletion entries in the filtered status. -/
def filteredDeletionCount (l : List (List Char)) : ℕ :=
  (l.filter isFilteredDeletion).length

theorem head_dropWhile_false {α : Type} (p : α → Bool) :
    ∀ (l : List α) (c : α) (rest : List α),
    l.dropWhile p = c :: rest → p c = false := by
  intro l
  induction l with
  | nil => intro c rest h; simp [List.dropWhile] at h
  | cons a l ih =>
    intro c rest h
    by_cases hp : p a = true
    · rw [List.dropWhile_cons, if_pos hp] at h
      exact ih c rest h
    · rw [List.dropWhile_cons, if_neg hp] at h
      cases h
      exact Bool.eq_false_iff.mpr hp

theorem pyStrip_isPrefix (s : List Char) :
    pyStrip s <+: s.dropWhile isPySpace := by
  have hsuf : ((s.dropWhile isPySpace).reverse.dropWhile isPySpace)
      <:+ (s.dropWhile isPySpace).reverse := List.dropWhile_suffix isPySpace
  have h2 := List.reverse_prefix.mpr hsuf
  rwa [List.reverse_reverse] at h2

theorem pyStrip_dropWhile (s : List Char) :
    (pyStrip s).dropWhile isPySpace = pyStrip s := by
  cases h : pyStrip s with
  | nil => simp
  | cons c rest =>
    obtain ⟨t, ht⟩ := pyStrip_isPrefix s
    rw [h] at ht
    have hc : isPySpace c = false :=
      head_dropWhile_false isPySpace s c (rest ++ t) (by rw [← ht]; simp)
    rw [List.dropWhile_cons, if_neg (by simp [hc])]

theorem pySplitOnce_two_cases (s flag fp : List Char)
    (h : pySplitOnce s = [flag, fp]) :
    flag = (s.dropWhile isPySpace).takeWhile (fun c => ! isPySpace c)
    ∧ fp = ((s.dropWhile isPySpace).dropWhile
        (fun c => ! isPySpace c)).dropWhile isPySpace
    ∧ fp ≠ [] := by
  simp only [pySplitOnce] at h
  split at h
  · exact absurd h (by simp)
  · split at h
    · exact absurd h (by simp)
    · rename_i hrest
      obtain ⟨h1, h2⟩ := List.cons.inj h
      obtain ⟨h3, _⟩ := List.cons.inj h2
      exact ⟨h1.symm, h3.symm, h3 ▸ hrest⟩

theorem pySplitOnce_flag_no_space (s flag fp : List Char)
    (h : pySplitOnce s = [flag, fp]) :
    ∀ c ∈ flag, isPySpace c = false := by
  obtain ⟨hflag, _, _⟩ := pySplitOnce_two_cases s flag fp h
  intro c hc
  rw [hflag] at hc
  have h2 := List.mem_takeWhile_imp hc
  simpa using h2

theorem filtered_deletion_raw_counted (s : List Char)
    (hspace : ∀ c ∈ pyStrip s, isPySpace c = true → c = ' ')
    (h : isFilteredDeletion s = true) :
    ("D ".toList).isPrefixOf (pyStrip s) = true := by
  unfold isFilteredDeletion at h
  cases hsplit : pySplitOnce (pyStrip s) with
  | nil => rw [hsplit] at h; simp at h
  | cons flag rest =>
    cases rest with
    | nil => rw [hsplit] at h; simp at h
    | cons fp rest2 =>
      cases rest2 with
      | cons x xs => rw [hsplit] at h; simp at h
      | nil =>
        rw [hsplit] at h
        simp only [Bool.and_eq_true, beq_iff_eq, Bool.not_eq_true'] at h
        obtain ⟨hflagD, _⟩ := h
        obtain ⟨hflag, hfp, hfpne⟩ := pySplitOnce_two_cases _ flag fp hsplit
        rw [pyStrip_dropWhile] at hflag hfp
        have hsplitid : (pyStrip s).takeWhile (fun c => ! isPySpace c)
            ++ (pyStrip s).dropWhile (fun c => ! isPySpace c) = pyStrip s :=
          List.takeWhile_append_dropWhile _ _
        have hrne : (pyStrip s).dropWhile (fun c => ! isPySpace c) ≠ [] := by
          intro hr
          rw [hr] at hfp
          simp [List.dropWhile] at hfp
          exact hfpne hfp
        cases hr : (pyStrip s).dropWhile (fun c => ! isPySpace c) with
        | nil => exact absurd hr hrne
        | cons c r2 =>
          have hcsp : isPySpace c = true := by
            have h2 := head_dropWhile_false (fun c => ! isPySpace c)
              (pyStrip s) c r2 hr
            simpa using h2
          have hcmem : c ∈ pyStrip s := by
            rw [← hsplitid, hr]
            simp
          have hcspace : c = ' ' := hspace c hcmem hcsp
          have hstrip : pyStrip s = 'D' :: ' ' :: r2 := by
            rw [← hsplitid, hr, ← hflag, hflagD, hcspace]
            rfl
          rw [hstrip]
          simp [List.isPrefixOf]

theorem statusEntryLines_init_no_deleted (gt : List Char → List Char)
    (s : List Char)
    (hwf : ("Deleted ".toList).isPrefixOf (pyStrip s) = false) :
    ∀ line ∈ statusEntryLines gt true s,
      ("Deleted ".toList).isPrefixOf line = false := by
  intro line hline
  by_cases h0 : pyStrip s = []
  · simp only [statusEntryLines] at hline
    rw [if_pos h0] at hline
    simp at hline
  · by_cases hAm : ("Am".toList).isPrefixOf (pyStrip s) = true
    · simp only [statusEntryLines] at hline
      rw [if_neg h0, if_pos hAm] at hline
      simp at hline
    · have hAmf : ("Am".toList).isPrefixOf (pyStrip s) = false :=
        Bool.eq_false_iff.mpr hAm
      cases hsplit : pySplitOnce (pyStrip s) with
      | nil =>
        rw [statusEntryLines_fallback gt true s h0 hAmf
          (by intro flag fp hc; rw [hsplit] at hc; exact absurd hc (by simp))]
          at hline
        rcases List.mem_singleton.mp hline with rfl
        exact hwf
      | cons flag rest =>
        cases rest with
        | nil =>
          rw [statusEntryLines_fallback gt true s h0 hAmf
            (by intro f2 p2 hc; rw [hsplit] at hc; exact absurd hc (by simp))]
            at hline
          rcases List.mem_singleton.mp hline with rfl
          exact hwf
        | cons fp rest2 =>
          cases rest2 with
          | cons x xs =>
            rw [statusEntryLines_fallback gt true s h0 hAmf
              (by intro f2 p2 hc; rw [hsplit] at hc; exact absurd hc (by simp))]
              at hline
            rcases List.mem_singleton.mp hline with rfl
            exact hwf
          | nil =>
            rw [statusEntryLines_eq_body gt true s flag fp h0 hAmf hsplit]
              at hline
            unfold statusEntryBody at hline
            by_cases hres : reservedEntry fp = true
            · rw [if_pos hres] at hline
              simp at hline
            · rw [if_neg hres] at hline
              by_cases hD : flag = "D".toList ∨ flag = " D".toList
              · rw [if_pos ⟨rfl, hD⟩] at hline
                simp at hline
              · rw [if_neg (by
                  intro hcond
                  exact hD hcond.2)] at hline
                by_cases hM : flag = "M".toList ∨ flag = " M".toList
                    ∨ flag = "M ".toList
                · rw [if_pos hM] at hline
                  rcases List.mem_singleton.mp hline with rfl
                  simp [List.isPrefixOf]
                · rw [if_neg hM] at hline
                  by_cases hA : flag = "A".toList ∨ flag = " A".toList
                      ∨ flag = "A ".toList
                  · rw [if_pos hA] at hline
                    rcases List.mem_singleton.mp hline with rfl
                    simp [List.isPrefixOf]
                  · rw [if_neg hA] at hline
                    by_cases hD2 : flag = "D".toList ∨ flag = " D".toList
                        ∨ flag = "D ".toList
                    · exfalso
                      rcases hD2 with hD2 | hD2 | hD2
                      · exact hD (Or.inl hD2)
                      · exact hD (Or.inr hD2)
                      · have hnos := pySplitOnce_flag_no_space _ flag fp hsplit
                        have hsp := hnos ' ' (by rw [hD2]; simp)
                        simp [isPySpace] at hsp
                    · rw [if_neg hD2] at hline
                      by_cases hQ : flag = "??".toList
                      · rw [if_pos hQ] at hline
                        rcases List.mem_singleton.mp hline with rfl
                        simp [List.isPrefixOf]
                      · rw [if_neg hQ] at hline
                        by_cases hR : flag = "R".toList
                        · rw [if_pos hR] at hline
                          rcases List.mem_singleton.mp hline with rfl
                          simp [List.isPrefixOf]
                        · rw [if_neg hR] at hline
                          rcases List.mem_singleton.mp hline with rfl
                          exact hwf

/-- Claim C8: `pretty_git_status` drops every entry whose path lies under a
reserved internal path (its loop-body contribution is empty), and when the
filtered status contains more than 20 deletion entries the bulk-delete
heuristic fires, so no produced line starts with `"Deleted "`.  The two
well-formedness hypotheses say the input looks like `git status -s` output:
no line strips to something starting with `"Deleted "`, and the whitespace
inside lines is plain spaces. -/
theorem prettyStatus_drops_reserved_suppresses_bulk_deletions
    (getTitle : List Char → List Char) (l : List (List Char))
    (hwf : ∀ s ∈ l, ("Deleted ".toList).isPrefixOf (pyStrip s) = false)
    (hspace : ∀ s ∈ l, ∀ c ∈ pyStrip s, isPySpace c = true → c = ' ') :
    (∀ s ∈ l, ∀ flag fp, pySplitOnce (pyStrip s) = [flag, fp] →
        reservedEntry fp = true →
        statusEntryLines getTitle (isInitialization l) s = [])
    ∧ (20 < filteredDeletionCount l →
        ∀ line ∈ pretty_git_status getTitle l,
          ("Deleted ".toList).isPrefixOf line = false) := by
  constructor
  · intro s _ flag fp hsplit hres
    by_cases h0 : pyStrip s = []
    · rw [h0] at hsplit
      rw [show pySplitOnce [] = [] from rfl] at hsplit
      exact absurd hsplit (by simp)
    · by_cases hAm : ("Am".toList).isPrefixOf (pyStrip s) = true
      · simp only [statusEntryLines]
        rw [if_neg h0, if_pos hAm]
      · rw [statusEntryLines_eq_body getTitle (isInitialization l) s flag fp
          h0 (Bool.eq_false_iff.mpr hAm) hsplit]
        unfold statusEntryBody
        rw [if_pos hres]
  · intro hcnt line hline
    have hmono : filteredDeletionCount l ≤ rawDeleteCount l := by
      unfold filteredDeletionCount rawDeleteCount
      rw [← List.countP_eq_length_filter, ← List.countP_eq_length_filter]
      exact List.countP_mono_left
        (fun s hs hp => filtered_deletion_raw_counted s (hspace s hs) hp)
    have hinit : isInitialization l = true :=
      decide_eq_true (lt_of_lt_of_le hcnt hmono)
    unfold pretty_git_status at hline
    rw [hinit] at hline
    obtain ⟨lines, hlines, hmem⟩ := List.mem_flatten.mp hline
    obtain ⟨s, hs, rfl⟩ := List.mem_map.mp hlines
    exact statusEntryLines_init_no_deleted getTitle s (hwf s hs) line hmem

/-- Sample status: 21 content deletions, one deletion under `.sessions/`,
one modification — enough to trigger the first-sync heuristic. -/
def sampleStatus : List (List Char) :=
  List.replicate 21 ("D a.md".toList)
    ++ ["D .sessions/x".toList, "M post.md".toList]

/-- Witness for C8 on `sampleStatus` with a constant title reader. -/
theorem prettyStatus_drops_reserved_suppresses_bulk_deletions_witness :
    filteredDeletionCount sampleStatus = 21
    ∧ statusEntryLines (fun _ => "T".toList) (isInitialization sampleStatus)
        ("D .sessions/x".toList) = []
    ∧ ∀ line ∈ pretty_git_status (fun _ => "T".toList) sampleStatus,
        ("Deleted ".toList).isPrefixOf line = false := by
  have h := prettyStatus_drops_reserved_suppresses_bulk_deletions
    (fun _ => "T".toList) sampleStatus
    (by decide) (by decide)
  refine ⟨by decide, ?_, ?_⟩
  · exact h.1 ("D .sessions/x".toList) (by decide)
      ("D".toList) (".sessions/x".toList) (by decide) (by decide)
  · exact h.2 (by decide)
end MarkGit
